import Mathlib

/-!
Verification of the rate-limited, multi-key, resumable API-fetch core of the
football-data repository, as a shallow embedding in Lean 4.

The embedding covers:
 - `api_client.py`, class `RateLimitedKeyManager` (sliding-window rate limiter
   with key rotation and permanent disabling);
 - `api_client.py`, `APIFootballClient._make_request` together with its
   `backoff.on_exception(..., max_tries=3)` decorator (response classification:
   HTTP 429/403, payload-level suspension and rate-limit errors, failover);
 - `scrape_player_match_stats.py`, `scrape_player_stats` (resumable fetch
   session: progress record, `remaining = all - fetched`, save every 10 units);
 - `scrape_all_teams.py`, the consecutive-error guard of `scrape_all_teams`;
 - `repair_statistics.py`, the two `drop_duplicates` merge sites and
   `RepairProgressTracker._load`.

Machine floats (`time.time()`) are modelled as exact integers `Int`; this is
faithful for every claim below, none of which depends on sub-second rounding.
Network traffic is modelled by a script (list) of `Response` values consumed
one per attempted HTTP request.
-/

namespace FootballData

/-! ### Rate-limited key manager (`api_client.py`, `RateLimitedKeyManager`) -/

/-- State of `RateLimitedKeyManager`: the credential pool size (`len(api_keys)`;
the key strings themselves are irrelevant to control flow and are dropped),
the per-key quota `requests_per_minute`, the window `window_seconds` (60 in
`__init__`), the per-key deques of request timestamps (oldest first), the set
of disabled key indices, and the rotation cursor `current_key_index`. -/
structure RateLimitedKeyManager where
  numKeys : Nat
  requestsPerMinute : Nat
  windowSeconds : Int
  requestTimestamps : List (List Int)
  disabledKeys : Finset Nat
  currentKeyIndex : Nat
deriving DecidableEq

/-- Timestamp deque of key `k` (missing index reads as the empty deque). -/
def tsOf (m : RateLimitedKeyManager) (k : Nat) : List Int :=
  m.requestTimestamps.getD k []

/-- Body of `_clean_old_timestamps`: pop entries from the front while they are
older than `now - window_seconds` (the `while timestamps and timestamps[0] <
cutoff: popleft()` loop is exactly `dropWhile`). -/
def cleanList (now win : Int) (l : List Int) : List Int :=
  l.dropWhile (fun x => decide (x < now - win))

/-- `_clean_old_timestamps(key_index)` applied to the manager state. -/
def cleanKey (now : Int) (k : Nat) (m : RateLimitedKeyManager) : RateLimitedKeyManager :=
  { m with requestTimestamps :=
      m.requestTimestamps.set k (cleanList now m.windowSeconds (tsOf m k)) }

/-- Loop body of `_get_available_key`: scan at most `fuel = len(api_keys)`
keys (`checked < len(self.api_keys)`) starting at the rotation cursor,
skipping disabled keys, purging then capacity-checking each candidate.
Returns the found key index (if any) together with the mutated state (the
Python method mutates the deques and the cursor in place). -/
def getAvailableKeyAux (now : Int) : Nat → RateLimitedKeyManager →
    Option Nat × RateLimitedKeyManager
  | 0, m => (none, m)
  | fuel + 1, m =>
    if m.currentKeyIndex ∈ m.disabledKeys then
      getAvailableKeyAux now fuel
        { m with currentKeyIndex := (m.currentKeyIndex + 1) % m.numKeys }
    else
      let m' := cleanKey now m.currentKeyIndex m
      if (tsOf m' m'.currentKeyIndex).length < m'.requestsPerMinute then
        (some m'.currentKeyIndex, m')
      else
        getAvailableKeyAux now fuel
          { m' with currentKeyIndex := (m'.currentKeyIndex + 1) % m'.numKeys }

/-- `_get_available_key`. -/
def getAvailableKey (now : Int) (m : RateLimitedKeyManager) :
    Option Nat × RateLimitedKeyManager :=
  getAvailableKeyAux now m.numKeys m

/-- `disable_key(key_index, reason)`: one-way insertion into the disabled set
(the reason is only logged and does not affect state). -/
def disableKey (k : Nat) (_reason : String) (m : RateLimitedKeyManager) :
    RateLimitedKeyManager :=
  { m with disabledKeys := insert k m.disabledKeys }

/-- The purge pass performed by `_get_wait_time`, which calls
`_clean_old_timestamps` on every non-disabled key (disabled keys are
`continue`d over before the cleaning). -/
def cleanKeysOn (now : Int) (ks : List Nat) (m : RateLimitedKeyManager) :
    RateLimitedKeyManager :=
  ks.foldl (fun acc k => if k ∈ acc.disabledKeys then acc else cleanKey now k acc) m

/-- All-key purge pass of `_get_wait_time` over `range(len(api_keys))`. -/
def cleanActive (now : Int) (m : RateLimitedKeyManager) : RateLimitedKeyManager :=
  cleanKeysOn now (List.range m.numKeys) m

/-- Value computed by `_get_wait_time`: 0 as soon as some non-disabled key has
spare capacity after purging, otherwise `max 0` of the minimum over
non-disabled keys of `(oldest + window) - now`; 0 when no non-disabled key
exists (`min_wait == inf`). The `head?`/`filterMap` skips an empty full deque,
which can only arise for quota 0 (where the Python `timestamps[0]` would
raise); all theorems below use quota at least 1. -/
def getWaitTimeVal (now : Int) (m : RateLimitedKeyManager) : Int :=
  let active := (List.range m.numKeys).filter (fun k => decide (k ∉ m.disabledKeys))
  if active.any
      (fun k => decide ((cleanList now m.windowSeconds (tsOf m k)).length
                          < m.requestsPerMinute)) then 0
  else
    match (active.filterMap
        (fun k => ((cleanList now m.windowSeconds (tsOf m k)).head?).map
          (fun oldest => oldest + m.windowSeconds - now))).min? with
    | none => 0
    | some w => max 0 w

/-- Outcome of one pass through the body of `get_key_with_rate_limit`. -/
inductive AcquireResult
  | allDisabled
  | acquired (k : Nat) (m : RateLimitedKeyManager)
  | mustWait (w : Int) (m : RateLimitedKeyManager)
deriving DecidableEq

/-- One pass of `get_key_with_rate_limit`: raise `RuntimeError` when every key
is disabled (`len(disabled_keys) >= len(api_keys)`, checked before the loop);
otherwise scan via `_get_available_key`; on success append `now` to the chosen
key's deque and advance the cursor past it; otherwise report the computed wait
time (the Python code then sleeps `wait + 0.1` and loops; the loop iteration
is the unit modelled here). `_get_wait_time` purges every non-disabled key. -/
def acquireOnce (now : Int) (m : RateLimitedKeyManager) : AcquireResult :=
  if m.numKeys ≤ m.disabledKeys.card then .allDisabled
  else
    match getAvailableKey now m with
    | (some k, m') =>
      .acquired k { m' with
        requestTimestamps := m'.requestTimestamps.set k (tsOf m' k ++ [now]),
        currentKeyIndex := (k + 1) % m'.numKeys }
    | (none, m') => .mustWait (getWaitTimeVal now m') (cleanActive now m')

/-- Iterate `n` immediately-successful acquisitions at one instant (`none` if
any of them fails to return a key at once). -/
def acquireN (now : Int) : Nat → RateLimitedKeyManager → Option RateLimitedKeyManager
  | 0, m => some m
  | n + 1, m =>
    match acquireOnce now m with
    | .acquired _ m' => acquireN now n m'
    | _ => none

/-- `__init__` with `n` keys and quota `r`: empty deques, no disabled keys,
cursor 0, 60-second window. -/
def initManager (n r : Nat) : RateLimitedKeyManager :=
  ⟨n, r, 60, List.replicate n [], ∅, 0⟩

/-- Number of recorded timestamps of key `k` lying within the trailing window
at instant `t` (exactly the entries the purge would keep: `x ≥ t - window`). -/
def windowCount (t : Int) (m : RateLimitedKeyManager) (k : Nat) : Nat :=
  ((tsOf m k).filter (fun x => decide (t - m.windowSeconds ≤ x))).length

/-- Manager state reached from `initManager n r` after `a * n + k`
instantaneous acquisitions at time `t0` (with `k < n`): keys below the cursor
`k` hold `a + 1` timestamps `t0`, the others hold `a`. -/
def filledState (n r : Nat) (t0 : Int) (a k : Nat) : RateLimitedKeyManager :=
  ⟨n, r, 60,
    (List.range n).map (fun i => List.replicate (if i < k then a + 1 else a) t0),
    ∅, k % n⟩

/-- Manager states reachable, by instant `t`, from a freshly constructed pool
of `n` keys with quota `r`: time may pass forward, `get_key_with_rate_limit`
passes may succeed or report a wait, and keys may be disabled. -/
inductive Reaches (n r : Nat) : Int → RateLimitedKeyManager → Prop
  | init (t : Int) : Reaches n r t (initManager n r)
  | time {t t' : Int} {m : RateLimitedKeyManager} :
      Reaches n r t m → t ≤ t' → Reaches n r t' m
  | acq {t : Int} {m : RateLimitedKeyManager} {k : Nat} {m' : RateLimitedKeyManager} :
      Reaches n r t m → acquireOnce t m = .acquired k m' → Reaches n r t m'
  | wait {t : Int} {m : RateLimitedKeyManager} {w : Int} {m' : RateLimitedKeyManager} :
      Reaches n r t m → acquireOnce t m = .mustWait w m' → Reaches n r t m'
  | dis {t : Int} {m : RateLimitedKeyManager} (k : Nat) (reason : String) :
      Reaches n r t m → Reaches n r t (disableKey k reason m)

/-- One observable transition of a manager from an arbitrary state (used for
the permanence-of-disabling claim, which starts from any state). -/
inductive ManagerStep : RateLimitedKeyManager → RateLimitedKeyManager → Prop
  | acq (t : Int) (k : Nat) {m m' : RateLimitedKeyManager} :
      acquireOnce t m = .acquired k m' → ManagerStep m m'
  | wait (t w : Int) {m m' : RateLimitedKeyManager} :
      acquireOnce t m = .mustWait w m' → ManagerStep m m'
  | dis (k : Nat) (reason : String) {m : RateLimitedKeyManager} :
      ManagerStep m (disableKey k reason m)

/-- Any finite sequence of manager transitions. -/
def ManagerSteps : RateLimitedKeyManager → RateLimitedKeyManager → Prop :=
  Relation.ReflTransGen ManagerStep

/-! ### Request executor (`api_client.py`, `APIFootballClient._make_request`) -/

/-- Classification of a non-empty `data["errors"]` payload, mirroring the
substring tests of `_make_request`: an account-suspension message, a
rate-limit message, or anything else. -/
inductive ErrKind
  | suspended
  | rateLimit
  | other
deriving DecidableEq

/-- One network response: either `raise_for_status()` fires with the given
HTTP status, or a JSON body arrives carrying an error classification (none =
no errors) and a result payload (abstracted to a row count). -/
inductive Response
  | http (status : Nat)
  | payload (err : Option ErrKind) (rows : Nat)
deriving DecidableEq

/-- Result of a `_make_request` invocation: a parsed payload, the explicit
empty result `{"response": []}`, a propagated `HTTPError` (caught and retried
by the `backoff` decorator), a propagated `RuntimeError` from the key manager
(not caught by `backoff`), a stuck rate-limit wait, or an exhausted script
(model artifact, unreachable in the scenarios proved below). -/
inductive ReqResult
  | ok (rows : Nat)
  | emptyResult
  | raisedHttp (status : Nat)
  | raisedRuntime
  | blocked
  | noResponse
deriving DecidableEq

/-- Trace of one `_make_request` invocation: its result, the key-manager state
left behind, the key indices acquired (in order), the `time.sleep` durations
executed, and the unconsumed remainder of the response script. -/
structure ExecResult where
  result : ReqResult
  manager : RateLimitedKeyManager
  keysUsed : List Nat
  sleeps : List Int
  rest : List Response
deriving DecidableEq

/-- Body of `_make_request` (one decorated invocation, including its internal
recursive retries): acquire a key, consume the next scripted response, then
classify exactly as the Python code does. HTTP 429: `time.sleep(10)` and fall
through to `raise`. HTTP 403: disable the used key and recurse while some key
remains, else fall through to `raise`. Payload suspension: disable and recurse
while some key remains, else return the empty result. Payload rate limit:
`time.sleep(60)` and recurse. Other payload error: return the empty result.
No errors: return the payload. -/
def makeRequestRaw (now : Int) : RateLimitedKeyManager → List Response → ExecResult
  | m, [] =>
    match acquireOnce now m with
    | .allDisabled => ⟨.raisedRuntime, m, [], [], []⟩
    | .mustWait _ m' => ⟨.blocked, m', [], [], []⟩
    | .acquired k m' => ⟨.noResponse, m', [k], [], []⟩
  | m, r :: rest =>
    match acquireOnce now m with
    | .allDisabled => ⟨.raisedRuntime, m, [], [], r :: rest⟩
    | .mustWait _ m' => ⟨.blocked, m', [], [], r :: rest⟩
    | .acquired k m' =>
      match r with
      | .http s =>
        if s = 429 then ⟨.raisedHttp 429, m', [k], [10], rest⟩
        else if s = 403 then
          let m2 := disableKey k "HTTP 403 Forbidden" m'
          if m2.disabledKeys.card < m2.numKeys then
            let r := makeRequestRaw now m2 rest
            ⟨r.result, r.manager, k :: r.keysUsed, r.sleeps, r.rest⟩
          else ⟨.raisedHttp 403, m2, [k], [], rest⟩
        else ⟨.raisedHttp s, m', [k], [], rest⟩
      | .payload none rows => ⟨.ok rows, m', [k], [], rest⟩
      | .payload (some .suspended) _ =>
        let m2 := disableKey k "Account suspended" m'
        if m2.disabledKeys.card < m2.numKeys then
          let r := makeRequestRaw now m2 rest
          ⟨r.result, r.manager, k :: r.keysUsed, r.sleeps, r.rest⟩
        else ⟨.emptyResult, m2, [k], [], rest⟩
      | .payload (some .rateLimit) _ =>
        let r := makeRequestRaw now m' rest
        ⟨r.result, r.manager, k :: r.keysUsed, 60 :: r.sleeps, r.rest⟩
      | .payload (some .other) _ => ⟨.emptyResult, m', [k], [], rest⟩

/-- The `backoff.on_exception(backoff.expo, (RequestException, Timeout),
max_tries=3, ...)` decorator around `_make_request`, with `retries` counting
the attempts still allowed after the current one: an `HTTPError` (a
`RequestException` subclass) triggers a retry while retries remain; the key
manager's `RuntimeError` does not. The decorator's own exponential waits
between tries are not part of the modelled sleep trace. -/
def makeRequestBackoff (now : Int) : Nat → RateLimitedKeyManager →
    List Response → ExecResult
  | 0, m, script => makeRequestRaw now m script
  | retries + 1, m, script =>
    let r := makeRequestRaw now m script
    match r.result with
    | .raisedHttp _ =>
      let r2 := makeRequestBackoff now retries r.manager r.rest
      ⟨r2.result, r2.manager, r.keysUsed ++ r2.keysUsed,
        r.sleeps ++ r2.sleeps, r2.rest⟩
    | _ => r

/-- A full decorated `_make_request` call (`max_tries = 3`: one attempt plus
up to 2 retries). -/
def makeRequest (now : Int) (m : RateLimitedKeyManager) (script : List Response) :
    ExecResult :=
  makeRequestBackoff now 2 m script

/-! ### Resumable fetch session (`scrape_player_match_stats.py`) -/

/-- The durable files of one session: the progress record's
`fetched_fixtures` list and `completed` flag (`player_stats_progress.json`)
and the accumulated output rows, identified by the work-unit id that produced
them (`world_cup_player_match_stats.csv`). The same pair also describes the
in-memory state (`fetched` set, `all_rows`). -/
structure SessionFiles where
  fetched : List Nat
  rows : List Nat
  completed : Bool
deriving DecidableEq

/-- Fresh state: no progress file, no output file. -/
def initFiles : SessionFiles := ⟨[], [], false⟩

/-- The per-fixture loop of `scrape_player_stats`, interrupted after `budget`
units: each processed unit appends its rows and its id (`fetched.add`), and
whenever `len(fetched) % 10 == 0` both files are flushed to durable storage
(`save_progress` + `to_csv`). Returns (in-memory state, durable state). -/
def runUnits : List Nat → Nat → SessionFiles → SessionFiles →
    SessionFiles × SessionFiles
  | [], _, mem, dur => (mem, dur)
  | _ :: _, 0, mem, dur => (mem, dur)
  | u :: rest, b + 1, mem, dur =>
    let mem' : SessionFiles := ⟨mem.fetched ++ [u], mem.rows ++ [u], false⟩
    let dur' := if mem'.fetched.length % 10 = 0 then mem' else dur
    runUnits rest b mem' dur'

/-- `remaining = target_matches[~isin(fetched)]`. -/
def sessionRemaining (target : List Nat) (dur : SessionFiles) : List Nat :=
  target.filter (fun u => decide (u ∉ dur.fetched))

/-- The work units for which a run with the given interruption budget issues a
network call (`api_client.get_fixture_players`): nothing when the progress
record is already complete, otherwise the first `budget` remaining units. -/
def sessionCalls (target : List Nat) (dur : SessionFiles) (budget : Nat) : List Nat :=
  if dur.completed then [] else (sessionRemaining target dur).take budget

/-- One run of `scrape_player_stats` over `target`, interrupted after `budget`
units (a budget of at least `remaining.length` is an uninterrupted run): an
already-completed record returns at once; an empty remainder marks completion;
otherwise the loop runs and either the final save persists everything with
`completed = True`, or the interruption leaves the last flushed state. The
in-memory buffer starts from the durable files (`load_progress`, `read_csv`). -/
def sessionRun (target : List Nat) (budget : Nat) (dur : SessionFiles) : SessionFiles :=
  if dur.completed then dur
  else
    let remaining := sessionRemaining target dur
    if remaining.isEmpty then { dur with completed := true }
    else
      let p := runUnits remaining budget ⟨dur.fetched, dur.rows, false⟩ dur
      if remaining.length ≤ budget then ⟨p.1.fetched, p.1.rows, true⟩ else p.2

/-- A sequence of (possibly interrupted) session runs over the same target. -/
def sessionsFold (target : List Nat) (budgets : List Nat) (dur : SessionFiles) :
    SessionFiles :=
  budgets.foldl (fun d b => sessionRun target b d) dur

/-- Consistency invariant of the durable session files: the progress record
holds no duplicates, the output rows match the progress record exactly, every
recorded unit comes from the target set, and a completed record covers the
whole target. -/
def GoodFiles (target : List Nat) (d : SessionFiles) : Prop :=
  d.fetched.Nodup ∧ d.rows = d.fetched ∧ (∀ u ∈ d.fetched, u ∈ target) ∧
    (d.completed = true → ∀ u ∈ target, u ∈ d.fetched)

/-! ### Consecutive-error guard (`scrape_all_teams.py`, `scrape_all_teams`) -/

/-- `MAX_CONSECUTIVE_ERRORS`. -/
def MAX_CONSECUTIVE_ERRORS : Nat := 5

/-- Outcome of processing one team in the `scrape_all_teams` loop, as far as
the `consecutive_errors` counter is concerned: a team completed successfully
(counter reset to 0), an invalid squad (counter incremented, threshold
checked), an exception whose text matches `"rate limit"`/`"quota"` (counter
incremented, then reset to 0 before the threshold check), or any other
exception (counter incremented, threshold checked). -/
inductive UnitOutcome
  | success
  | invalidSquad
  | excRateLimit
  | excOther
deriving DecidableEq

/-- Effect of one outcome on the counter, returning the new counter value and
whether the `sys.exit(1)` pause fires (`consecutive_errors >=
MAX_CONSECUTIVE_ERRORS`). For a rate-limit exception the code increments,
then executes `consecutive_errors = 0`, and only then reaches the check. -/
def guardStep (c : Nat) : UnitOutcome → Nat × Bool
  | .success => (0, false)
  | .invalidSquad => (c + 1, decide (MAX_CONSECUTIVE_ERRORS ≤ c + 1))
  | .excRateLimit => (0, false)
  | .excOther => (c + 1, decide (MAX_CONSECUTIVE_ERRORS ≤ c + 1))

/-- Run the guard over a sequence of outcomes, stopping at the first pause.
Returns the final counter and whether the session was paused. -/
def runGuard (c : Nat) : List UnitOutcome → Nat × Bool
  | [] => (c, false)
  | o :: rest =>
    let s := guardStep c o
    if s.2 then (s.1, true) else runGuard s.1 rest

/-- A unit failure that the guard counts: an invalid squad or an exception not
classified as a rate-limit/quota error. -/
def isCountedFailure : UnitOutcome → Bool
  | .invalidSquad => true
  | .excOther => true
  | _ => false

/-! ### Deduplicating merges (`repair_statistics.py`) -/

/-- One statistics row: the natural composite key `(player_id, season,
league_id, team_id)` plus all remaining columns abstracted into `payload`. -/
structure StatRow where
  player_id : Nat
  season : Nat
  league_id : Nat
  team_id : Nat
  payload : Nat
deriving DecidableEq

/-- The composite deduplication key. -/
def statKey (r : StatRow) : Nat × Nat × Nat × Nat :=
  (r.player_id, r.season, r.league_id, r.team_id)

/-- Scan for `drop_duplicates(keep='first')`: emit a row only when its key has
not been seen yet. -/
def dropDupFirstAux (seen : List (Nat × Nat × Nat × Nat)) :
    List StatRow → List StatRow
  | [] => []
  | x :: xs =>
    if statKey x ∈ seen then dropDupFirstAux seen xs
    else x :: dropDupFirstAux (statKey x :: seen) xs

/-- `DataFrame.drop_duplicates(subset=key, keep='first')`: keep the first
occurrence of every key, preserving row order. -/
def dropDuplicatesKeepFirst (l : List StatRow) : List StatRow :=
  dropDupFirstAux [] l

/-- `DataFrame.drop_duplicates(subset=key, keep='last')`: keep the last
occurrence of every key, preserving row order. -/
def dropDuplicatesKeepLast (l : List StatRow) : List StatRow :=
  (dropDuplicatesKeepFirst l.reverse).reverse

/-- The per-team merge of `repair_team`: `concat([existing, new])` followed by
`drop_duplicates(subset=key, keep='last')`. -/
def repairMerge (existing newRows : List StatRow) : List StatRow :=
  dropDuplicatesKeepLast (existing ++ newRows)

/-- The cross-team merge of `rebuild_all_player_statistics`: `concat(all_dfs)`
followed by `drop_duplicates(subset=key, keep='first')`. -/
def rebuildMerge (dfs : List (List StatRow)) : List StatRow :=
  dropDuplicatesKeepFirst dfs.flatten

/-! ### Progress-file loading (`repair_statistics.py`, `RepairProgressTracker`) -/

/-- The persisted repair progress record. -/
structure RepairProgress where
  completed_teams : List String
  player_seasons_scraped : List (String × List Int)
  api_calls_made : Nat
  started_at : String
  last_updated : Option String
deriving DecidableEq

/-- Possible states of the progress file on disk as `_load` observes them:
absent (`os.path.exists` false), present but unreadable (`open`/read raises),
present but not valid JSON of the right shape (`json.load` raises), or valid. -/
inductive ProgressFileState
  | missing
  | unreadable
  | invalidJson
  | valid (p : RepairProgress)
deriving DecidableEq

/-- The read-and-parse step inside `_load`'s `try`: `none` when the file does
not exist (no read is attempted), an error when reading or parsing raises. -/
def tryLoadFile : ProgressFileState → Option (Except String RepairProgress)
  | .missing => none
  | .unreadable => some (.error "read failed")
  | .invalidJson => some (.error "invalid JSON")
  | .valid p => some (.ok p)

/-- The fresh record `_load` falls back to (`datetime.now().isoformat()` is
abstracted as the `now` argument). -/
def freshProgress (now : String) : RepairProgress :=
  ⟨[], [], 0, now, none⟩

/-- `RepairProgressTracker._load`: return the parsed record when the file
exists and parses; on a missing file or on any exception (`except Exception:
pass`) fall through to the fresh record. Total by construction: no file state
propagates an error. -/
def loadProgress (now : String) (fs : ProgressFileState) : RepairProgress :=
  match tryLoadFile fs with
  | some (.ok p) => p
  | _ => freshProgress now

/-- Configuration fields of the key manager that no operation ever changes:
pool size, quota, window length; plus (for the purely observational operations
`_clean_old_timestamps` and `_get_available_key`) the disabled set. -/
def SameConfig (m m' : RateLimitedKeyManager) : Prop :=
  m'.numKeys = m.numKeys ∧ m'.requestsPerMinute = m.requestsPerMinute ∧
    m'.windowSeconds = m.windowSeconds ∧ m'.disabledKeys = m.disabledKeys

/-! ### Basic lemmas about the key manager -/

theorem SameConfig.refl (m : RateLimitedKeyManager) : SameConfig m m :=
  ⟨rfl, rfl, rfl, rfl⟩

theorem SameConfig.trans {m₁ m₂ m₃ : RateLimitedKeyManager}
    (h : SameConfig m₁ m₂) (h' : SameConfig m₂ m₃) : SameConfig m₁ m₃ :=
  ⟨h'.1.trans h.1, h'.2.1.trans h.2.1, h'.2.2.1.trans h.2.2.1, h'.2.2.2.trans h.2.2.2⟩

theorem cleanKey_sameConfig (now : Int) (k : Nat) (m : RateLimitedKeyManager) :
    SameConfig m (cleanKey now k m) := by
  simp [SameConfig, cleanKey]

theorem setCursor_sameConfig (c : Nat) (m : RateLimitedKeyManager) :
    SameConfig m { m with currentKeyIndex := c } := by
  simp [SameConfig]

theorem getAvailableKeyAux_sameConfig (now : Int) (fuel : Nat)
    (m : RateLimitedKeyManager) :
    SameConfig m (getAvailableKeyAux now fuel m).2 := by
  induction fuel generalizing m with
  | zero => exact SameConfig.refl m
  | succ fuel ih =>
    rw [getAvailableKeyAux]
    split
    · exact (setCursor_sameConfig _ _).trans (ih _)
    · dsimp only
      split
      · exact cleanKey_sameConfig _ _ _
      · exact ((cleanKey_sameConfig _ _ _).trans (setCursor_sameConfig _ _)).trans (ih _)

theorem getAvailableKeyAux_some_not_disabled {now : Int} {fuel : Nat}
    {m m' : RateLimitedKeyManager} {k : Nat}
    (h : getAvailableKeyAux now fuel m = (some k, m')) : k ∉ m'.disabledKeys := by
  induction fuel generalizing m with
  | zero => simp [getAvailableKeyAux] at h
  | succ fuel ih =>
    rw [getAvailableKeyAux] at h
    split at h
    · exact ih h
    · dsimp only at h
      split at h
      · rename_i hdis _
        obtain ⟨hk, hm⟩ := Prod.mk.injEq .. ▸ h
        obtain rfl := Option.some.injEq .. ▸ hk
        subst hm
        simpa [cleanKey] using hdis
      · exact ih h

theorem cleanKeysOn_sameConfig (now : Int) (ks : List Nat)
    (m : RateLimitedKeyManager) : SameConfig m (cleanKeysOn now ks m) := by
  induction ks generalizing m with
  | nil => exact SameConfig.refl m
  | cons k ks ih =>
    rw [cleanKeysOn, List.foldl_cons]
    by_cases hk : k ∈ m.disabledKeys
    · simpa [cleanKeysOn, hk] using ih m
    · simpa [cleanKeysOn, hk] using (cleanKey_sameConfig now k m).trans (ih _)

theorem cleanActive_sameConfig (now : Int) (m : RateLimitedKeyManager) :
    SameConfig m (cleanActive now m) :=
  cleanKeysOn_sameConfig now _ m

theorem acquireOnce_acquired_props {t : Int} {m : RateLimitedKeyManager}
    {k : Nat} {m' : RateLimitedKeyManager}
    (h : acquireOnce t m = .acquired k m') :
    SameConfig m m' ∧ k ∉ m.disabledKeys := by
  unfold acquireOnce at h
  split at h
  · exact absurd h (by simp)
  · rw [getAvailableKey] at h
    rcases haux : getAvailableKeyAux t m.numKeys m with ⟨o, m₀⟩
    rw [haux] at h
    match o with
    | none => simp at h
    | some k₀ =>
      have hc := getAvailableKeyAux_sameConfig t m.numKeys m
      have hnd := getAvailableKeyAux_some_not_disabled haux
      rw [haux] at hc
      obtain ⟨rfl, rfl⟩ : k₀ = k ∧ _ = m' := by
        simpa [AcquireResult.acquired.injEq] using h
      exact ⟨hc.trans (by simp [SameConfig]), hc.2.2.2 ▸ hnd⟩

theorem acquireOnce_mustWait_sameConfig {t : Int} {m : RateLimitedKeyManager}
    {w : Int} {m' : RateLimitedKeyManager}
    (h : acquireOnce t m = .mustWait w m') : SameConfig m m' := by
  unfold acquireOnce at h
  split at h
  · exact absurd h (by simp)
  · rw [getAvailableKey] at h
    rcases haux : getAvailableKeyAux t m.numKeys m with ⟨o, m₀⟩
    rw [haux] at h
    match o with
    | some k₀ => simp at h
    | none =>
      have hc := getAvailableKeyAux_sameConfig t m.numKeys m
      rw [haux] at hc
      obtain ⟨rfl, rfl⟩ : getWaitTimeVal t m₀ = w ∧ cleanActive t m₀ = m' := by
        simpa [AcquireResult.mustWait.injEq] using h
      exact hc.trans (cleanActive_sameConfig t m₀)

theorem ManagerStep.disabled_subset_step {m m' : RateLimitedKeyManager}
    (h : ManagerStep m m') : m.disabledKeys ⊆ m'.disabledKeys := by
  cases h with
  | acq t k hacq => exact (acquireOnce_acquired_props hacq).1.2.2.2 ▸ Finset.Subset.refl _
  | wait t w hw => exact (acquireOnce_mustWait_sameConfig hw).2.2.2 ▸ Finset.Subset.refl _
  | dis k reason => exact Finset.subset_insert _ _

theorem ManagerSteps.disabled_subset {m m' : RateLimitedKeyManager}
    (h : ManagerSteps m m') : m.disabledKeys ⊆ m'.disabledKeys := by
  induction h with
  | refl => exact Finset.Subset.refl _
  | tail _ hstep ih => exact ih.trans hstep.disabled_subset_step

/-! ### Claim theorems -/

/-- C2: in any pool state where all `numKeys` credentials are disabled, one
call of `get_key_with_rate_limit` raises its `RuntimeError` at once: the
`len(disabled_keys) >= len(api_keys)` guard fires before the scan loop and
before any sleep is reachable. -/
theorem C2_all_disabled_raises_immediately (m : RateLimitedKeyManager) (t : Int)
    (h : ∀ k, k < m.numKeys → k ∈ m.disabledKeys) :
    acquireOnce t m = .allDisabled := by
  have hsub : Finset.range m.numKeys ⊆ m.disabledKeys := fun k hk =>
    h k (Finset.mem_range.mp hk)
  have hcard : m.numKeys ≤ m.disabledKeys.card := by
    simpa using Finset.card_le_card hsub
  unfold acquireOnce
  simp [hcard]

theorem C2_witness :
    (∀ k, k < (⟨2, 10, 60, [[], []], {0, 1}, 0⟩ :
        RateLimitedKeyManager).numKeys →
      k ∈ (⟨2, 10, 60, [[], []], {0, 1}, 0⟩ :
        RateLimitedKeyManager).disabledKeys) ∧
    acquireOnce 0 ⟨2, 10, 60, [[], []], {0, 1}, 0⟩ = .allDisabled :=
  ⟨by decide, C2_all_disabled_raises_immediately ⟨2, 10, 60, [[], []], {0, 1}, 0⟩ 0
    (by decide)⟩

/-- C3: after `disable_key(i, reason)`, no `get_key_with_rate_limit` success
in any later sequence of limiter transitions ever returns credential `i`
(disabling is one-way and the scan skips disabled keys); and disabling an
already-disabled index leaves the disabled set unchanged. -/
theorem C3_disable_permanent_and_idempotent :
    (∀ (m : RateLimitedKeyManager) (i : Nat) (reason : String)
        (m' : RateLimitedKeyManager),
      ManagerSteps (disableKey i reason m) m' →
      ∀ (t : Int) (k : Nat) (m'' : RateLimitedKeyManager),
        acquireOnce t m' = .acquired k m'' → k ≠ i) ∧
    (∀ (m : RateLimitedKeyManager) (i : Nat) (reason : String),
      i ∈ m.disabledKeys → (disableKey i reason m).disabledKeys = m.disabledKeys) := by
  constructor
  · intro m i reason m' hsteps t k m'' hacq
    have hi : i ∈ m'.disabledKeys :=
      hsteps.disabled_subset (by simp [disableKey])
    have hk : k ∉ m'.disabledKeys := (acquireOnce_acquired_props hacq).2
    exact fun hki => hk (hki ▸ hi)
  · intro m i reason hi
    simpa [disableKey] using Finset.insert_eq_self.mpr hi

/-- C10: `RepairProgressTracker._load` never propagates a file error: it is
total, and on a missing file, an unreadable file, or syntactically invalid
JSON it returns the fresh record, whose `completed_teams` and
`player_seasons_scraped` are empty and whose `api_calls_made` is 0. -/
theorem C10_load_never_raises (now : String) (fs : ProgressFileState)
    (h : ∀ p, fs ≠ .valid p) :
    loadProgress now fs = freshProgress now ∧
    (freshProgress now).completed_teams = [] ∧
    (freshProgress now).player_seasons_scraped = [] ∧
    (freshProgress now).api_calls_made = 0 := by
  refine ⟨?_, rfl, rfl, rfl⟩
  cases fs with
  | missing => rfl
  | unreadable => rfl
  | invalidJson => rfl
  | valid p => exact absurd rfl (h p)

theorem C10_witness :
    loadProgress "2026-01-01" .invalidJson = freshProgress "2026-01-01" ∧
    (freshProgress "2026-01-01").completed_teams = [] ∧
    (freshProgress "2026-01-01").player_seasons_scraped = [] ∧
    (freshProgress "2026-01-01").api_calls_made = 0 :=
  C10_load_never_raises "2026-01-01" .invalidJson
    (fun _ h => ProgressFileState.noConfusion h)

theorem guardStep_counted {c : Nat} {o : UnitOutcome}
    (h : isCountedFailure o = true) :
    guardStep c o = (c + 1, decide (MAX_CONSECUTIVE_ERRORS ≤ c + 1)) := by
  cases o <;> simp_all [isCountedFailure, guardStep]

theorem runGuard_cons_counted {c : Nat} {o : UnitOutcome}
    (h : isCountedFailure o = true) (hlt : c + 1 < MAX_CONSECUTIVE_ERRORS)
    (rest : List UnitOutcome) :
    runGuard c (o :: rest) = runGuard (c + 1) rest := by
  simp [runGuard, guardStep_counted h, Nat.not_le.mpr hlt]

theorem runGuard_cons_trip {c : Nat} {o : UnitOutcome}
    (h : isCountedFailure o = true) (hge : MAX_CONSECUTIVE_ERRORS ≤ c + 1)
    (rest : List UnitOutcome) :
    runGuard c (o :: rest) = (c + 1, true) := by
  simp [runGuard, guardStep_counted h, hge]

theorem runGuard_cons_success (c : Nat) (rest : List UnitOutcome) :
    runGuard c (.success :: rest) = runGuard 0 rest := by
  simp [runGuard, guardStep]

/-- C8: with `MAX_CONSECUTIVE_ERRORS = 5`, starting from a reset counter,
four counted failures followed by one successful team leave the session
unpaused with the counter back at 0; five consecutive counted failures pause
it; and a rate-limit-classified exception leaves the counter at 0 and can
never trip the guard, so such errors never contribute to the count. -/
theorem C8_consecutive_error_guard :
    (∀ fs : List UnitOutcome, fs.length = 4 →
      (∀ o ∈ fs, isCountedFailure o = true) →
      runGuard 0 (fs ++ [.success]) = (0, false)) ∧
    (∀ fs : List UnitOutcome, fs.length = 5 →
      (∀ o ∈ fs, isCountedFailure o = true) →
      (runGuard 0 fs).2 = true) ∧
    (∀ c, guardStep c .excRateLimit = (0, false)) ∧
    (∀ c rest, runGuard c (.excRateLimit :: rest) = runGuard 0 rest) := by
  refine ⟨?_, ?_, fun c => rfl, fun c rest => by simp [runGuard, guardStep]⟩
  · intro fs hlen hall
    rcases fs with _ | ⟨a, _ | ⟨b, _ | ⟨c, _ | ⟨d, _ | ⟨e, tl⟩⟩⟩⟩⟩ <;>
      simp only [List.length] at hlen <;> try omega
    rw [List.cons_append, List.cons_append, List.cons_append, List.cons_append,
      List.nil_append,
      runGuard_cons_counted (hall a (by simp)) (by decide),
      runGuard_cons_counted (hall b (by simp)) (by decide),
      runGuard_cons_counted (hall c (by simp)) (by decide),
      runGuard_cons_counted (hall d (by simp)) (by decide),
      runGuard_cons_success]
    rfl
  · intro fs hlen hall
    rcases fs with _ | ⟨a, _ | ⟨b, _ | ⟨c, _ | ⟨d, _ | ⟨e, _ | ⟨f, tl⟩⟩⟩⟩⟩⟩ <;>
      simp only [List.length] at hlen <;> try omega
    rw [runGuard_cons_counted (hall a (by simp)) (by decide),
      runGuard_cons_counted (hall b (by simp)) (by decide),
      runGuard_cons_counted (hall c (by simp)) (by decide),
      runGuard_cons_counted (hall d (by simp)) (by decide),
      runGuard_cons_trip (hall e (by simp)) (by decide)]

theorem C8_witness :
    runGuard 0 (List.replicate 4 UnitOutcome.invalidSquad ++ [.success]) =
      (0, false) ∧
    (runGuard 0 (List.replicate 5 UnitOutcome.excOther)).2 = true :=
  ⟨C8_consecutive_error_guard.1 (List.replicate 4 UnitOutcome.invalidSquad)
      (by decide) (by decide),
    C8_consecutive_error_guard.2.1 (List.replicate 5 UnitOutcome.excOther)
      (by decide) (by decide)⟩

theorem dropDupFirstAux_filter (l : List StatRow)
    (seen : List (Nat × Nat × Nat × Nat)) (κ : Nat × Nat × Nat × Nat) :
    (dropDupFirstAux seen l).filter (fun r => decide (statKey r = κ)) =
      if κ ∈ seen then []
      else (l.filter (fun r => decide (statKey r = κ))).take 1 := by
  induction l generalizing seen with
  | nil => simp only [dropDupFirstAux, List.filter_nil, List.take_nil]; split <;> rfl
  | cons x xs ih =>
    rw [dropDupFirstAux]
    by_cases hx : statKey x ∈ seen
    · rw [if_pos hx, ih]
      by_cases hκ : κ ∈ seen
      · simp [hκ]
      · have hne : ¬statKey x = κ := fun h => hκ (h ▸ hx)
        simp [hκ, List.filter_cons, hne]
    · rw [if_neg hx]
      by_cases hxκ : statKey x = κ
      · have hκ : κ ∉ seen := hxκ ▸ hx
        have hmem : κ ∈ statKey x :: seen := by simp [hxκ]
        simp only [List.filter_cons]
        rw [ih]
        simp [hxκ, hκ, hmem]
      · have h1 : ¬(κ = statKey x) := fun h => hxκ h.symm
        simp only [List.filter_cons]
        rw [ih]
        by_cases hκ : κ ∈ seen <;> simp [hxκ, hκ, h1, List.mem_cons]

theorem keepFirst_filter (l : List StatRow) (κ : Nat × Nat × Nat × Nat) :
    (dropDuplicatesKeepFirst l).filter (fun r => decide (statKey r = κ)) =
      (l.filter (fun r => decide (statKey r = κ))).take 1 := by
  simpa using dropDupFirstAux_filter l [] κ

theorem keepLast_filter (l : List StatRow) (κ : Nat × Nat × Nat × Nat) :
    (dropDuplicatesKeepLast l).filter (fun r => decide (statKey r = κ)) =
      ((l.filter (fun r => decide (statKey r = κ))).reverse.take 1).reverse := by
  rw [dropDuplicatesKeepLast, List.filter_reverse, keepFirst_filter,
    List.filter_reverse]

/-- C9 counterexample: at the cross-team rebuild site
(`rebuild_all_player_statistics`, `keep='first'`), merging a batch with a
later-fetched row for the same composite key keeps the earlier row, not the
later one, so the later-fetched row is not preferred at every merge site. -/
theorem C9_counterexample :
    rebuildMerge [[⟨1, 2020, 39, 50, 111⟩], [⟨1, 2020, 39, 50, 222⟩]] =
      [⟨1, 2020, 39, 50, 111⟩] ∧
    (⟨1, 2020, 39, 50, 111⟩ : StatRow) ≠ ⟨1, 2020, 39, 50, 222⟩ := by
  decide

/-- C9 (amended): both merge sites retain exactly one row per composite key
present in their input, but their preference differs: the per-team repair
merge (`keep='last'`) keeps the last occurrence — the later-fetched row —
while the cross-team rebuild (`keep='first'`) keeps the first occurrence. -/
theorem C9_dedup_policies :
    (∀ (existing newRows : List StatRow) (κ : Nat × Nat × Nat × Nat),
      (repairMerge existing newRows).filter (fun r => decide (statKey r = κ)) =
        (((existing ++ newRows).filter
            (fun r => decide (statKey r = κ))).reverse.take 1).reverse) ∧
    (∀ (dfs : List (List StatRow)) (κ : Nat × Nat × Nat × Nat),
      (rebuildMerge dfs).filter (fun r => decide (statKey r = κ)) =
        (dfs.flatten.filter (fun r => decide (statKey r = κ))).take 1) ∧
    (∀ (existing newRows : List StatRow) (r : StatRow), r ∈ existing ++ newRows →
      ((repairMerge existing newRows).filter
          (fun r' => decide (statKey r' = statKey r))).length = 1) ∧
    (∀ (dfs : List (List StatRow)) (r : StatRow), r ∈ dfs.flatten →
      ((rebuildMerge dfs).filter
          (fun r' => decide (statKey r' = statKey r))).length = 1) := by
  have hmem : ∀ (l : List StatRow) (r : StatRow), r ∈ l →
      0 < (l.filter (fun r' => decide (statKey r' = statKey r))).length := by
    intro l r hr
    have : r ∈ l.filter (fun r' => decide (statKey r' = statKey r)) :=
      List.mem_filter.mpr ⟨hr, by simp⟩
    exact List.length_pos.mpr (List.ne_nil_of_mem this)
  refine ⟨fun existing newRows κ => keepLast_filter _ κ,
    fun dfs κ => keepFirst_filter _ κ, ?_, ?_⟩
  · intro existing newRows r hr
    unfold repairMerge
    rw [keepLast_filter]
    have := hmem (existing ++ newRows) r hr
    simp only [List.length_reverse, List.length_take]
    omega
  · intro dfs r hr
    unfold rebuildMerge
    rw [keepFirst_filter]
    have := hmem dfs.flatten r hr
    simp only [List.length_take]
    omega

theorem C9_witness :
    ((repairMerge [⟨1, 2020, 39, 50, 111⟩] [⟨1, 2020, 39, 50, 222⟩]).filter
        (fun r' => decide (statKey r' =
          statKey (⟨1, 2020, 39, 50, 222⟩ : StatRow)))).length = 1 ∧
    ((rebuildMerge [[⟨1, 2020, 39, 50, 111⟩], [⟨1, 2020, 39, 50, 222⟩]]).filter
        (fun r' => decide (statKey r' =
          statKey (⟨1, 2020, 39, 50, 222⟩ : StatRow)))).length = 1 :=
  ⟨C9_dedup_policies.2.2.1 [⟨1, 2020, 39, 50, 111⟩] [⟨1, 2020, 39, 50, 222⟩]
      ⟨1, 2020, 39, 50, 222⟩ (by decide),
    C9_dedup_policies.2.2.2 [[⟨1, 2020, 39, 50, 111⟩], [⟨1, 2020, 39, 50, 222⟩]]
      ⟨1, 2020, 39, 50, 222⟩ (by decide)⟩

theorem runUnits_full (units : List Nat) (b : Nat) (mem dur : SessionFiles)
    (h : units.length ≤ b) :
    (runUnits units b mem dur).1.fetched = mem.fetched ++ units ∧
    (runUnits units b mem dur).1.rows = mem.rows ++ units := by
  induction units generalizing b mem dur with
  | nil => simp [runUnits]
  | cons u rest ih =>
    cases b with
    | zero => simp at h
    | succ b =>
      have hle : rest.length ≤ b := by simpa using h
      simp only [runUnits]
      refine ⟨?_, ?_⟩
      · rw [(ih b _ _ hle).1]; simp
      · rw [(ih b _ _ hle).2]; simp

theorem runUnits_good {target : List Nat} (units : List Nat) (b : Nat)
    (mem dur : SessionFiles)
    (hnd : mem.fetched.Nodup) (hrw : mem.rows = mem.fetched)
    (hsub : ∀ u ∈ mem.fetched, u ∈ target)
    (hund : units.Nodup) (hdisj : ∀ u ∈ units, u ∉ mem.fetched)
    (husub : ∀ u ∈ units, u ∈ target)
    (hdur : GoodFiles target dur) :
    ((runUnits units b mem dur).1.fetched.Nodup ∧
      (runUnits units b mem dur).1.rows = (runUnits units b mem dur).1.fetched ∧
      (∀ u ∈ (runUnits units b mem dur).1.fetched, u ∈ target)) ∧
    GoodFiles target (runUnits units b mem dur).2 := by
  induction units generalizing b mem dur with
  | nil => simp only [runUnits]; exact ⟨⟨hnd, hrw, hsub⟩, hdur⟩
  | cons u rest ih =>
    cases b with
    | zero => simp only [runUnits]; exact ⟨⟨hnd, hrw, hsub⟩, hdur⟩
    | succ b =>
      simp only [runUnits]
      have hu : u ∉ mem.fetched := hdisj u (by simp)
      have hnd' : (mem.fetched ++ [u]).Nodup := by
        rw [List.nodup_append]
        exact ⟨hnd, List.nodup_singleton u, List.disjoint_singleton.mpr hu⟩
      have hsub' : ∀ v ∈ mem.fetched ++ [u], v ∈ target := by
        intro v hv
        rcases List.mem_append.mp hv with h | h
        · exact hsub v h
        · simp at h; subst h; exact husub _ (by simp)
      have hdisj' : ∀ v ∈ rest, v ∉ mem.fetched ++ [u] := by
        intro v hv hvm
        rcases List.mem_append.mp hvm with h | h
        · exact hdisj v (by simp [hv]) h
        · simp at h; subst h; exact (List.nodup_cons.mp hund).1 hv
      have hdur' : GoodFiles target
          (if (mem.fetched ++ [u]).length % 10 = 0
           then (⟨mem.fetched ++ [u], mem.rows ++ [u], false⟩ : SessionFiles)
           else dur) := by
        split
        · exact ⟨hnd', by rw [hrw], hsub', by simp⟩
        · exact hdur
      exact ih b ⟨mem.fetched ++ [u], mem.rows ++ [u], false⟩ _ hnd'
        (by rw [hrw]) hsub' (List.nodup_cons.mp hund).2 hdisj'
        (fun v hv => husub v (by simp [hv])) hdur'

theorem sessionRemaining_mem {target : List Nat} {d : SessionFiles} {u : Nat}
    (h : u ∈ sessionRemaining target d) : u ∈ target ∧ u ∉ d.fetched := by
  obtain ⟨h1, h2⟩ := List.mem_filter.mp h
  exact ⟨h1, of_decide_eq_true h2⟩

theorem sessionRun_good {target : List Nat} (hnd : target.Nodup) (b : Nat)
    {d : SessionFiles} (hd : GoodFiles target d) :
    GoodFiles target (sessionRun target b d) := by
  unfold sessionRun
  dsimp only
  split
  · exact hd
  · split
    · rename_i hemp
      refine ⟨hd.1, hd.2.1, hd.2.2.1, fun _ u hu => ?_⟩
      have hnil : sessionRemaining target d = [] := List.isEmpty_iff.mp hemp
      have := List.filter_eq_nil_iff.mp hnil u hu
      simpa using this
    · have hrem_nodup : (sessionRemaining target d).Nodup := List.Nodup.filter _ hnd
      have hrem_disj : ∀ u ∈ sessionRemaining target d, u ∉ d.fetched :=
        fun u hu => (sessionRemaining_mem hu).2
      have hrem_sub : ∀ u ∈ sessionRemaining target d, u ∈ target :=
        fun u hu => (sessionRemaining_mem hu).1
      split
      · rename_i hble
        obtain ⟨hf, hr⟩ :=
          runUnits_full (sessionRemaining target d) b ⟨d.fetched, d.rows, false⟩ d hble
        refine ⟨?_, ?_, ?_, ?_⟩
        · show (runUnits _ b _ d).1.fetched.Nodup
          rw [hf]
          rw [List.nodup_append]
          exact ⟨hd.1, hrem_nodup, fun a ha hra => hrem_disj a hra ha⟩
        · show (runUnits _ b _ d).1.rows = (runUnits _ b _ d).1.fetched
          rw [hf, hr]
          show d.rows ++ _ = _
          rw [hd.2.1]
        · show ∀ u ∈ (runUnits _ b _ d).1.fetched, u ∈ target
          rw [hf]
          intro u hu
          rcases List.mem_append.mp hu with h | h
          · exact hd.2.2.1 u h
          · exact hrem_sub u h
        · intro _ u hu
          show u ∈ (runUnits _ b _ d).1.fetched
          rw [hf]
          by_cases hfet : u ∈ d.fetched
          · exact List.mem_append.mpr (Or.inl hfet)
          · exact List.mem_append.mpr (Or.inr
              (List.mem_filter.mpr ⟨hu, decide_eq_true hfet⟩))
      · exact (runUnits_good (sessionRemaining target d) b
          ⟨d.fetched, d.rows, false⟩ d hd.1 hd.2.1 hd.2.2.1
          hrem_nodup hrem_disj hrem_sub hd).2

theorem sessionsFold_good {target : List Nat} (hnd : target.Nodup)
    (budgets : List Nat) {d : SessionFiles} (hd : GoodFiles target d) :
    GoodFiles target (sessionsFold target budgets d) := by
  induction budgets generalizing d with
  | nil => exact hd
  | cons b bs ih =>
    show GoodFiles target (sessionsFold target bs (sessionRun target b d))
    exact ih (sessionRun_good hnd b hd)

theorem initFiles_good (target : List Nat) : GoodFiles target initFiles := by
  refine ⟨List.nodup_nil, rfl, by simp [initFiles], by simp [initFiles]⟩

/-- C6: for any progress record, a re-run issues no network call for a unit
already in the completed set; and however many interrupted runs preceded it,
an uninterrupted final run over a duplicate-free work-unit set leaves an
output table with exactly one row per work unit of the target set and no row
for anything else. -/
theorem C6_resume_idempotence (target : List Nat) (hnd : target.Nodup) :
    (∀ (dur : SessionFiles) (budget : Nat) (u : Nat),
      u ∈ dur.fetched → u ∉ sessionCalls target dur budget) ∧
    (∀ (budgets : List Nat) (u : Nat), u ∈ target →
      (sessionRun target target.length
        (sessionsFold target budgets initFiles)).rows.count u = 1) ∧
    (∀ (budgets : List Nat) (u : Nat), u ∉ target →
      (sessionRun target target.length
        (sessionsFold target budgets initFiles)).rows.count u = 0) := by
  have hfinal : ∀ budgets : List Nat,
      GoodFiles target (sessionRun target target.length
        (sessionsFold target budgets initFiles)) ∧
      (sessionRun target target.length
        (sessionsFold target budgets initFiles)).completed = true := by
    intro budgets
    have hgood := sessionRun_good hnd target.length
      (sessionsFold_good hnd budgets (initFiles_good target))
    refine ⟨hgood, ?_⟩
    set d := sessionsFold target budgets initFiles with hdd
    unfold sessionRun
    dsimp only
    split
    · assumption
    · split
      · rfl
      · split
        · rfl
        · rename_i hnle
          exact absurd (List.length_filter_le _ target) hnle
  refine ⟨?_, ?_, ?_⟩
  · intro dur budget u hu hmem
    unfold sessionCalls at hmem
    split at hmem
    · simp at hmem
    · have := List.take_subset budget (sessionRemaining target dur) hmem
      exact (sessionRemaining_mem this).2 hu
  · intro budgets u hu
    obtain ⟨hgood, hcomp⟩ := hfinal budgets
    rw [hgood.2.1]
    exact List.count_eq_one_of_mem hgood.1 (hgood.2.2.2 hcomp u hu)
  · intro budgets u hu
    obtain ⟨hgood, _⟩ := hfinal budgets
    rw [hgood.2.1]
    exact List.count_eq_zero.mpr (fun hm => hu (hgood.2.2.1 u hm))

theorem C6_witness :
    ((1 : Nat) ∈ (⟨[1], [1], false⟩ : SessionFiles).fetched ∧
      (1 : Nat) ∉ sessionCalls [1, 2, 3] ⟨[1], [1], false⟩ 5) ∧
    (sessionRun [1, 2, 3] 3 (sessionsFold [1, 2, 3] [2] initFiles)).rows.count 2
      = 1 ∧
    (sessionRun [1, 2, 3] 3 (sessionsFold [1, 2, 3] [2] initFiles)).rows.count 7
      = 0 :=
  ⟨⟨by decide, (C6_resume_idempotence [1, 2, 3] (by decide)).1
      ⟨[1], [1], false⟩ 5 1 (by decide)⟩,
    (C6_resume_idempotence [1, 2, 3] (by decide)).2.1 [2] 2 (by decide),
    (C6_resume_idempotence [1, 2, 3] (by decide)).2.2 [2] 7 (by decide)⟩

/-- C7 counterexample: in `scrape_player_stats` the progress record is only
flushed every 10 fixtures, so interrupting a fresh 10-unit session after unit
7 persists nothing; the restart re-issues unit 1 (and in fact all ten units),
not only units 8 to 10 as the claim states. -/
theorem C7_counterexample :
    (1 : Nat) ∈ sessionCalls [1, 2, 3, 4, 5, 6, 7, 8, 9, 10]
      (sessionRun [1, 2, 3, 4, 5, 6, 7, 8, 9, 10] 7 initFiles) 10 ∧
    sessionCalls [1, 2, 3, 4, 5, 6, 7, 8, 9, 10]
      (sessionRun [1, 2, 3, 4, 5, 6, 7, 8, 9, 10] 7 initFiles) 10 ≠
      [8, 9, 10] := by
  decide

/-- C7 (amended): with the periodic flush every 10 units, interrupting a
fresh 10-unit session after unit 7 (before the flush at unit 10) leaves the
progress record empty and restarting re-processes all of units 1 to 10; data
loss on interruption is bounded by the batch, not zero: a 12-unit session
interrupted after unit 11 resumes at exactly units 11 and 12 (units 1 to 10
were flushed and are never re-issued), and an uninterrupted 10-unit session
persists completion so that a restart issues no calls at all. -/
theorem C7_batch_flush_resume :
    sessionRun [1, 2, 3, 4, 5, 6, 7, 8, 9, 10] 7 initFiles = initFiles ∧
    sessionCalls [1, 2, 3, 4, 5, 6, 7, 8, 9, 10]
      (sessionRun [1, 2, 3, 4, 5, 6, 7, 8, 9, 10] 7 initFiles) 10 =
      [1, 2, 3, 4, 5, 6, 7, 8, 9, 10] ∧
    sessionCalls [1, 2, 3, 4, 5, 6, 7, 8, 9, 10, 11, 12]
      (sessionRun [1, 2, 3, 4, 5, 6, 7, 8, 9, 10, 11, 12] 11 initFiles) 12 =
      [11, 12] ∧
    (sessionRun [1, 2, 3, 4, 5, 6, 7, 8, 9, 10] 10 initFiles).completed = true ∧
    sessionCalls [1, 2, 3, 4, 5, 6, 7, 8, 9, 10]
      (sessionRun [1, 2, 3, 4, 5, 6, 7, 8, 9, 10] 10 initFiles) 10 = [] := by
  decide

theorem raw_allDisabled {now : Int} {m : RateLimitedKeyManager}
    (h : acquireOnce now m = .allDisabled) (script : List Response) :
    makeRequestRaw now m script = ⟨.raisedRuntime, m, [], [], script⟩ := by
  cases script <;> (simp only [makeRequestRaw]; rw [h])

theorem raw_nil {now : Int} {m : RateLimitedKeyManager} {k : Nat}
    {m' : RateLimitedKeyManager} (h : acquireOnce now m = .acquired k m') :
    makeRequestRaw now m [] = ⟨.noResponse, m', [k], [], []⟩ := by
  simp only [makeRequestRaw]; rw [h]

theorem raw_429 {now : Int} {m : RateLimitedKeyManager} {k : Nat}
    {m' : RateLimitedKeyManager} (h : acquireOnce now m = .acquired k m')
    (rest : List Response) :
    makeRequestRaw now m (.http 429 :: rest) =
      ⟨.raisedHttp 429, m', [k], [10], rest⟩ := by
  simp only [makeRequestRaw]; rw [h]; simp

theorem raw_403_spare {now : Int} {m : RateLimitedKeyManager} {k : Nat}
    {m' : RateLimitedKeyManager} (h : acquireOnce now m = .acquired k m')
    (hcard : (disableKey k "HTTP 403 Forbidden" m').disabledKeys.card <
      (disableKey k "HTTP 403 Forbidden" m').numKeys) (rest : List Response) :
    makeRequestRaw now m (.http 403 :: rest) =
      ⟨(makeRequestRaw now (disableKey k "HTTP 403 Forbidden" m') rest).result,
        (makeRequestRaw now (disableKey k "HTTP 403 Forbidden" m') rest).manager,
        k :: (makeRequestRaw now (disableKey k "HTTP 403 Forbidden" m') rest).keysUsed,
        (makeRequestRaw now (disableKey k "HTTP 403 Forbidden" m') rest).sleeps,
        (makeRequestRaw now (disableKey k "HTTP 403 Forbidden" m') rest).rest⟩ := by
  simp only [makeRequestRaw]; rw [h]; simp [hcard]

theorem raw_403_exhausted {now : Int} {m : RateLimitedKeyManager} {k : Nat}
    {m' : RateLimitedKeyManager} (h : acquireOnce now m = .acquired k m')
    (hcard : ¬(disableKey k "HTTP 403 Forbidden" m').disabledKeys.card <
      (disableKey k "HTTP 403 Forbidden" m').numKeys) (rest : List Response) :
    makeRequestRaw now m (.http 403 :: rest) =
      ⟨.raisedHttp 403, disableKey k "HTTP 403 Forbidden" m', [k], [], rest⟩ := by
  simp only [makeRequestRaw]; rw [h]; simp [hcard]

theorem raw_http_other {now : Int} {m : RateLimitedKeyManager} {k : Nat}
    {m' : RateLimitedKeyManager} (h : acquireOnce now m = .acquired k m')
    {s : Nat} (h429 : s ≠ 429) (h403 : s ≠ 403) (rest : List Response) :
    makeRequestRaw now m (.http s :: rest) =
      ⟨.raisedHttp s, m', [k], [], rest⟩ := by
  simp only [makeRequestRaw]; rw [h]; simp [h429, h403]

theorem raw_ok {now : Int} {m : RateLimitedKeyManager} {k : Nat}
    {m' : RateLimitedKeyManager} (h : acquireOnce now m = .acquired k m')
    (rows : Nat) (rest : List Response) :
    makeRequestRaw now m (.payload none rows :: rest) =
      ⟨.ok rows, m', [k], [], rest⟩ := by
  simp only [makeRequestRaw]; rw [h]

theorem raw_susp_spare {now : Int} {m : RateLimitedKeyManager} {k : Nat}
    {m' : RateLimitedKeyManager} (h : acquireOnce now m = .acquired k m')
    (hcard : (disableKey k "Account suspended" m').disabledKeys.card <
      (disableKey k "Account suspended" m').numKeys) (rows : Nat)
    (rest : List Response) :
    makeRequestRaw now m (.payload (some .suspended) rows :: rest) =
      ⟨(makeRequestRaw now (disableKey k "Account suspended" m') rest).result,
        (makeRequestRaw now (disableKey k "Account suspended" m') rest).manager,
        k :: (makeRequestRaw now (disableKey k "Account suspended" m') rest).keysUsed,
        (makeRequestRaw now (disableKey k "Account suspended" m') rest).sleeps,
        (makeRequestRaw now (disableKey k "Account suspended" m') rest).rest⟩ := by
  simp only [makeRequestRaw]; rw [h]; simp [hcard]

theorem raw_susp_exhausted {now : Int} {m : RateLimitedKeyManager} {k : Nat}
    {m' : RateLimitedKeyManager} (h : acquireOnce now m = .acquired k m')
    (hcard : ¬(disableKey k "Account suspended" m').disabledKeys.card <
      (disableKey k "Account suspended" m').numKeys) (rows : Nat)
    (rest : List Response) :
    makeRequestRaw now m (.payload (some .suspended) rows :: rest) =
      ⟨.emptyResult, disableKey k "Account suspended" m', [k], [], rest⟩ := by
  simp only [makeRequestRaw]; rw [h]; simp [hcard]

theorem raw_rateLimit {now : Int} {m : RateLimitedKeyManager} {k : Nat}
    {m' : RateLimitedKeyManager} (h : acquireOnce now m = .acquired k m')
    (rows : Nat) (rest : List Response) :
    makeRequestRaw now m (.payload (some .rateLimit) rows :: rest) =
      ⟨(makeRequestRaw now m' rest).result, (makeRequestRaw now m' rest).manager,
        k :: (makeRequestRaw now m' rest).keysUsed,
        60 :: (makeRequestRaw now m' rest).sleeps,
        (makeRequestRaw now m' rest).rest⟩ := by
  simp only [makeRequestRaw]; rw [h]

theorem raw_payload_other {now : Int} {m : RateLimitedKeyManager} {k : Nat}
    {m' : RateLimitedKeyManager} (h : acquireOnce now m = .acquired k m')
    (rows : Nat) (rest : List Response) :
    makeRequestRaw now m (.payload (some .other) rows :: rest) =
      ⟨.emptyResult, m', [k], [], rest⟩ := by
  simp only [makeRequestRaw]; rw [h]

theorem raw_mustWait {now : Int} {m : RateLimitedKeyManager} {w : Int}
    {m' : RateLimitedKeyManager} (h : acquireOnce now m = .mustWait w m')
    (script : List Response) :
    makeRequestRaw now m script = ⟨.blocked, m', [], [], script⟩ := by
  cases script <;> (simp only [makeRequestRaw]; rw [h])

theorem makeRequestRaw_disabled_mono (now : Int) (script : List Response) :
    ∀ m : RateLimitedKeyManager,
      m.disabledKeys ⊆ (makeRequestRaw now m script).manager.disabledKeys := by
  induction script with
  | nil =>
    intro m
    rcases hacq : acquireOnce now m with _ | ⟨k, m'⟩ | ⟨w, m'⟩
    · rw [raw_allDisabled hacq]
    · rw [raw_nil hacq]
      exact ((acquireOnce_acquired_props hacq).1.2.2.2).ge
    · rw [raw_mustWait hacq]
      exact ((acquireOnce_mustWait_sameConfig hacq).2.2.2).ge
  | cons r rest ih =>
    intro m
    rcases hacq : acquireOnce now m with _ | ⟨k, m'⟩ | ⟨w, m'⟩
    · rw [raw_allDisabled hacq]
    · have hmd : m.disabledKeys = m'.disabledKeys :=
        ((acquireOnce_acquired_props hacq).1.2.2.2).symm
      have hm2 : ∀ reason, m.disabledKeys ⊆ (disableKey k reason m').disabledKeys := by
        intro reason
        rw [hmd]
        exact Finset.subset_insert _ _
      rcases r with s | ⟨err, rows⟩
      · by_cases h429 : s = 429
        · subst h429; rw [raw_429 hacq]; exact hmd.le
        · by_cases h403 : s = 403
          · subst h403
            by_cases hcard : (disableKey k "HTTP 403 Forbidden" m').disabledKeys.card <
                (disableKey k "HTTP 403 Forbidden" m').numKeys
            · rw [raw_403_spare hacq hcard]
              exact (hm2 "HTTP 403 Forbidden").trans
                (ih (disableKey k "HTTP 403 Forbidden" m'))
            · rw [raw_403_exhausted hacq hcard]
              exact hm2 "HTTP 403 Forbidden"
          · rw [raw_http_other hacq h429 h403]; exact hmd.le
      · rcases err with _ | e
        · rw [raw_ok hacq]; exact hmd.le
        · cases e with
          | suspended =>
            by_cases hcard : (disableKey k "Account suspended" m').disabledKeys.card <
                (disableKey k "Account suspended" m').numKeys
            · rw [raw_susp_spare hacq hcard]
              exact (hm2 "Account suspended").trans
                (ih (disableKey k "Account suspended" m'))
            · rw [raw_susp_exhausted hacq hcard]
              exact hm2 "Account suspended"
          | rateLimit =>
            rw [raw_rateLimit hacq]
            exact hmd.le.trans (ih m')
          | other => rw [raw_payload_other hacq]; exact hmd.le
    · rw [raw_mustWait hacq]
      exact ((acquireOnce_mustWait_sameConfig hacq).2.2.2).ge

theorem makeRequestRaw_keys_not_disabled (now : Int) (script : List Response) :
    ∀ (m : RateLimitedKeyManager) (k' : Nat),
      k' ∈ (makeRequestRaw now m script).keysUsed → k' ∉ m.disabledKeys := by
  induction script with
  | nil =>
    intro m k' hk'
    rcases hacq : acquireOnce now m with _ | ⟨k, m'⟩ | ⟨w, m'⟩
    · rw [raw_allDisabled hacq] at hk'; simp at hk'
    · rw [raw_nil hacq] at hk'
      simp at hk'
      subst hk'
      exact (acquireOnce_acquired_props hacq).2
    · rw [raw_mustWait hacq] at hk'; simp at hk'
  | cons r rest ih =>
    intro m k' hk'
    rcases hacq : acquireOnce now m with _ | ⟨k, m'⟩ | ⟨w, m'⟩
    · rw [raw_allDisabled hacq] at hk'; simp at hk'
    · have hknd : k ∉ m.disabledKeys := (acquireOnce_acquired_props hacq).2
      have hmd : m.disabledKeys = m'.disabledKeys :=
        ((acquireOnce_acquired_props hacq).1.2.2.2).symm
      have hrec : ∀ reason,
          k' ∈ (makeRequestRaw now (disableKey k reason m') rest).keysUsed →
          k' ∉ m.disabledKeys := by
        intro reason hmem hc
        exact ih (disableKey k reason m') k' hmem
          (Finset.mem_insert_of_mem (hmd ▸ hc))
      rcases r with s | ⟨err, rows⟩
      · by_cases h429 : s = 429
        · subst h429; rw [raw_429 hacq] at hk'
          simp at hk'
          subst hk'; exact hknd
        · by_cases h403 : s = 403
          · subst h403
            by_cases hcard : (disableKey k "HTTP 403 Forbidden" m').disabledKeys.card <
                (disableKey k "HTTP 403 Forbidden" m').numKeys
            · rw [raw_403_spare hacq hcard] at hk'
              dsimp only at hk'
              rcases List.mem_cons.mp hk' with rfl | hk'
              · exact hknd
              · exact hrec "HTTP 403 Forbidden" hk'
            · rw [raw_403_exhausted hacq hcard] at hk'
              simp at hk'
              subst hk'; exact hknd
          · rw [raw_http_other hacq h429 h403] at hk'
            simp at hk'
            subst hk'; exact hknd
      · rcases err with _ | e
        · rw [raw_ok hacq] at hk'
          simp at hk'
          subst hk'; exact hknd
        · cases e with
          | suspended =>
            by_cases hcard : (disableKey k "Account suspended" m').disabledKeys.card <
                (disableKey k "Account suspended" m').numKeys
            · rw [raw_susp_spare hacq hcard] at hk'
              dsimp only at hk'
              rcases List.mem_cons.mp hk' with rfl | hk'
              · exact hknd
              · exact hrec "Account suspended" hk'
            · rw [raw_susp_exhausted hacq hcard] at hk'
              simp at hk'
              subst hk'; exact hknd
          | rateLimit =>
            rw [raw_rateLimit hacq] at hk'
            dsimp only at hk'
            rcases List.mem_cons.mp hk' with rfl | hk'
            · exact hknd
            · intro hc
              exact ih m' k' hk' (hmd ▸ hc)
          | other =>
            rw [raw_payload_other hacq] at hk'
            simp at hk'
            subst hk'; exact hknd
    · rw [raw_mustWait hacq] at hk'; simp at hk'

theorem acquireOnce_allDisabled_of_card {m : RateLimitedKeyManager} (now : Int)
    (h : m.numKeys ≤ m.disabledKeys.card) : acquireOnce now m = .allDisabled := by
  unfold acquireOnce
  simp [h]

theorem backoff_succ_retry {now : Int} {retries : Nat}
    {m : RateLimitedKeyManager} {script : List Response} {s : Nat}
    (h : (makeRequestRaw now m script).result = .raisedHttp s) :
    makeRequestBackoff now (retries + 1) m script =
      ⟨(makeRequestBackoff now retries (makeRequestRaw now m script).manager
          (makeRequestRaw now m script).rest).result,
        (makeRequestBackoff now retries (makeRequestRaw now m script).manager
          (makeRequestRaw now m script).rest).manager,
        (makeRequestRaw now m script).keysUsed ++
          (makeRequestBackoff now retries (makeRequestRaw now m script).manager
            (makeRequestRaw now m script).rest).keysUsed,
        (makeRequestRaw now m script).sleeps ++
          (makeRequestBackoff now retries (makeRequestRaw now m script).manager
            (makeRequestRaw now m script).rest).sleeps,
        (makeRequestBackoff now retries (makeRequestRaw now m script).manager
          (makeRequestRaw now m script).rest).rest⟩ := by
  simp only [makeRequestBackoff]
  rw [h]

theorem backoff_succ_noRetry {now : Int} {retries : Nat}
    {m : RateLimitedKeyManager} {script : List Response}
    (h : ∀ s, (makeRequestRaw now m script).result ≠ .raisedHttp s) :
    makeRequestBackoff now (retries + 1) m script = makeRequestRaw now m script := by
  simp only [makeRequestBackoff]

theorem backoff_two_retry {now : Int} {m : RateLimitedKeyManager}
    {script : List Response} {s : Nat}
    (h : (makeRequestRaw now m script).result = .raisedHttp s) :
    makeRequestBackoff now 2 m script =
      ⟨(makeRequestBackoff now 1 (makeRequestRaw now m script).manager
          (makeRequestRaw now m script).rest).result,
        (makeRequestBackoff now 1 (makeRequestRaw now m script).manager
          (makeRequestRaw now m script).rest).manager,
        (makeRequestRaw now m script).keysUsed ++
          (makeRequestBackoff now 1 (makeRequestRaw now m script).manager
            (makeRequestRaw now m script).rest).keysUsed,
        (makeRequestRaw now m script).sleeps ++
          (makeRequestBackoff now 1 (makeRequestRaw now m script).manager
            (makeRequestRaw now m script).rest).sleeps,
        (makeRequestBackoff now 1 (makeRequestRaw now m script).manager
          (makeRequestRaw now m script).rest).rest⟩ := by
  show makeRequestBackoff now (1 + 1) m script = _
  exact backoff_succ_retry h

theorem backoff_one_retry {now : Int} {m : RateLimitedKeyManager}
    {script : List Response} {s : Nat}
    (h : (makeRequestRaw now m script).result = .raisedHttp s) :
    makeRequestBackoff now 1 m script =
      ⟨(makeRequestRaw now (makeRequestRaw now m script).manager
          (makeRequestRaw now m script).rest).result,
        (makeRequestRaw now (makeRequestRaw now m script).manager
          (makeRequestRaw now m script).rest).manager,
        (makeRequestRaw now m script).keysUsed ++
          (makeRequestRaw now (makeRequestRaw now m script).manager
            (makeRequestRaw now m script).rest).keysUsed,
        (makeRequestRaw now m script).sleeps ++
          (makeRequestRaw now (makeRequestRaw now m script).manager
            (makeRequestRaw now m script).rest).sleeps,
        (makeRequestRaw now (makeRequestRaw now m script).manager
          (makeRequestRaw now m script).rest).rest⟩ := by
  show makeRequestBackoff now (0 + 1) m script = _
  exact backoff_succ_retry h

theorem backoff_one_noRetry {now : Int} {m : RateLimitedKeyManager}
    {script : List Response}
    (h : ∀ s, (makeRequestRaw now m script).result ≠ .raisedHttp s) :
    makeRequestBackoff now 1 m script = makeRequestRaw now m script := by
  show makeRequestBackoff now (0 + 1) m script = _
  exact backoff_succ_noRetry h

/-- C4 counterexample: with a single credential, an HTTP 403 disables it,
exhausting the pool, and the decorated `_make_request` then raises (the
`HTTPError` falls through to `raise`; the backoff retry hits the key
manager's `RuntimeError`) instead of returning the explicit empty result the
claim promises for the HTTP-403 case. -/
theorem C4_counterexample :
    (makeRequest 0 (initManager 1 5) [.http 403]).result = .raisedRuntime ∧
    (makeRequest 0 (initManager 1 5) [.http 403]).result ≠ .emptyResult := by
  decide

/-- C4 (amended): on HTTP 403 or a payload-suspension error the executor
permanently disables the credential it used and, while a credential remains,
transparently retries the same logical call, which is then served only by
credentials different from the disabled one. When the disablement exhausts
the pool, the payload-suspension branch returns the explicit empty result,
but the HTTP-403 branch raises: the `HTTPError` propagates out of
`_make_request` and the backoff retry then raises the key manager's
`RuntimeError`, so the claim's empty-result promise holds only for the
payload-suspension case. -/
theorem C4_credential_failover :
    (∀ (now : Int) (m m' : RateLimitedKeyManager) (k : Nat) (rest : List Response),
      acquireOnce now m = .acquired k m' →
      (disableKey k "HTTP 403 Forbidden" m').disabledKeys.card <
        (disableKey k "HTTP 403 Forbidden" m').numKeys →
      (makeRequestRaw now m (.http 403 :: rest)).result =
        (makeRequestRaw now (disableKey k "HTTP 403 Forbidden" m') rest).result ∧
      (makeRequestRaw now m (.http 403 :: rest)).keysUsed =
        k :: (makeRequestRaw now (disableKey k "HTTP 403 Forbidden" m') rest).keysUsed ∧
      (∀ k' ∈ (makeRequestRaw now (disableKey k "HTTP 403 Forbidden" m') rest).keysUsed,
        k' ≠ k) ∧
      k ∈ (makeRequestRaw now m (.http 403 :: rest)).manager.disabledKeys) ∧
    (∀ (now : Int) (m m' : RateLimitedKeyManager) (k rows : Nat)
        (rest : List Response),
      acquireOnce now m = .acquired k m' →
      (disableKey k "Account suspended" m').disabledKeys.card <
        (disableKey k "Account suspended" m').numKeys →
      (makeRequestRaw now m (.payload (some .suspended) rows :: rest)).result =
        (makeRequestRaw now (disableKey k "Account suspended" m') rest).result ∧
      (makeRequestRaw now m (.payload (some .suspended) rows :: rest)).keysUsed =
        k :: (makeRequestRaw now (disableKey k "Account suspended" m') rest).keysUsed ∧
      (∀ k' ∈ (makeRequestRaw now (disableKey k "Account suspended" m') rest).keysUsed,
        k' ≠ k) ∧
      k ∈ (makeRequestRaw now m
        (.payload (some .suspended) rows :: rest)).manager.disabledKeys) ∧
    (∀ (now : Int) (m m' : RateLimitedKeyManager) (k rows : Nat)
        (rest : List Response),
      acquireOnce now m = .acquired k m' →
      ¬(disableKey k "Account suspended" m').disabledKeys.card <
        (disableKey k "Account suspended" m').numKeys →
      (makeRequestRaw now m (.payload (some .suspended) rows :: rest)).result =
        .emptyResult) ∧
    (∀ (now : Int) (m m' : RateLimitedKeyManager) (k : Nat) (rest : List Response),
      acquireOnce now m = .acquired k m' →
      ¬(disableKey k "HTTP 403 Forbidden" m').disabledKeys.card <
        (disableKey k "HTTP 403 Forbidden" m').numKeys →
      (makeRequestRaw now m (.http 403 :: rest)).result = .raisedHttp 403 ∧
      (makeRequest now m (.http 403 :: rest)).result = .raisedRuntime) := by
  refine ⟨?_, ?_, ?_, ?_⟩
  · intro now m m' k rest h hcard
    have hkd : k ∈ (disableKey k "HTTP 403 Forbidden" m').disabledKeys :=
      Finset.mem_insert_self _ _
    rw [raw_403_spare h hcard]
    refine ⟨rfl, rfl, ?_, ?_⟩
    · intro k' hk' heq
      exact makeRequestRaw_keys_not_disabled now rest _ k' hk' (heq ▸ hkd)
    · exact makeRequestRaw_disabled_mono now rest _ hkd
  · intro now m m' k rows rest h hcard
    have hkd : k ∈ (disableKey k "Account suspended" m').disabledKeys :=
      Finset.mem_insert_self _ _
    rw [raw_susp_spare h hcard]
    refine ⟨rfl, rfl, ?_, ?_⟩
    · intro k' hk' heq
      exact makeRequestRaw_keys_not_disabled now rest _ k' hk' (heq ▸ hkd)
    · exact makeRequestRaw_disabled_mono now rest _ hkd
  · intro now m m' k rows rest h hcard
    rw [raw_susp_exhausted h hcard]
  · intro now m m' k rest h hcard
    have h1 := raw_403_exhausted h hcard rest
    have hall : acquireOnce now (disableKey k "HTTP 403 Forbidden" m') = .allDisabled :=
      acquireOnce_allDisabled_of_card now (Nat.le_of_not_lt hcard)
    have h2 := raw_allDisabled hall rest
    refine ⟨by rw [h1], ?_⟩
    show (makeRequestBackoff now 2 m _).result = _
    rw [backoff_two_retry (s := 403) (by rw [h1]), h1]
    dsimp only
    rw [backoff_one_noRetry (by intro s'; rw [h2]; simp), h2]

theorem C4_witness :
    (0 : Nat) ∈ (makeRequestRaw 0 (initManager 2 5)
      [.http 403, .payload none 7]).manager.disabledKeys ∧
    (makeRequestRaw 0 (initManager 1 5)
      [.payload (some .suspended) 7]).result = .emptyResult ∧
    (makeRequest 0 (initManager 1 5) [.http 403]).result = .raisedRuntime :=
  ⟨(C4_credential_failover.1 0 (initManager 2 5) ⟨2, 5, 60, [[0], []], ∅, 1⟩ 0
      [.payload none 7] (by decide) (by decide)).2.2.2,
    C4_credential_failover.2.2.1 0 (initManager 1 5) ⟨1, 5, 60, [[0]], ∅, 0⟩ 0 7 []
      (by decide) (by decide),
    (C4_credential_failover.2.2.2 0 (initManager 1 5) ⟨1, 5, 60, [[0]], ∅, 0⟩ 0 []
      (by decide) (by decide)).2⟩

/-- C5 counterexample: three consecutive HTTP 429 responses exhaust the
backoff decorator's `max_tries=3`, and the call fails with the propagated
`HTTPError`, contradicting the claim that server-imposed throttling never
surfaces as a failure of the call. -/
theorem C5_counterexample :
    (makeRequest 0 (initManager 1 5) [.http 429, .http 429, .http 429]).result =
      .raisedHttp 429 ∧
    (makeRequest 0 (initManager 1 5) [.http 429, .http 429, .http 429]).result ≠
      .emptyResult := by
  decide

/-- C5 (amended): on HTTP 429 the executor sleeps a fixed 10 seconds, then
re-raises the `HTTPError`, which the backoff decorator catches and retries up
to 3 total attempts: a 429 followed by a success is transparently recovered
(one 10-second sleep, one retry), but three consecutive 429 responses
surface as a failure (the `HTTPError` propagates to the caller). -/
theorem C5_429_sleep_then_retry :
    (∀ (now : Int) (m m' m'' : RateLimitedKeyManager) (k k2 rows : Nat)
        (rest : List Response),
      acquireOnce now m = .acquired k m' →
      acquireOnce now m' = .acquired k2 m'' →
      makeRequest now m (.http 429 :: .payload none rows :: rest) =
        ⟨.ok rows, m'', [k, k2], [10], rest⟩) ∧
    (∀ (now : Int) (m m1 m2 m3 : RateLimitedKeyManager) (k1 k2 k3 : Nat),
      acquireOnce now m = .acquired k1 m1 →
      acquireOnce now m1 = .acquired k2 m2 →
      acquireOnce now m2 = .acquired k3 m3 →
      makeRequest now m [.http 429, .http 429, .http 429] =
        ⟨.raisedHttp 429, m3, [k1, k2, k3], [10, 10, 10], []⟩) := by
  constructor
  · intro now m m' m'' k k2 rows rest ha hb
    have h1 := raw_429 ha (.payload none rows :: rest)
    have h2 := raw_ok hb rows rest
    show makeRequestBackoff now 2 m _ = _
    rw [backoff_two_retry (s := 429) (by rw [h1]), h1]
    dsimp only
    rw [backoff_one_noRetry (by intro s'; rw [h2]; simp), h2]
    simp
  · intro now m m1 m2 m3 k1 k2 k3 ha hb hc
    have h1 := raw_429 ha [.http 429, .http 429]
    have h2 := raw_429 hb [.http 429]
    have h3 := raw_429 hc []
    show makeRequestBackoff now 2 m _ = _
    rw [backoff_two_retry (s := 429) (by rw [h1]), h1]
    dsimp only
    rw [backoff_one_retry (s := 429) (by rw [h2]), h2]
    dsimp only
    rw [h3]
    simp

theorem C5_witness :
    makeRequest 0 (initManager 1 5) [.http 429, .payload none 7] =
      ⟨.ok 7, ⟨1, 5, 60, [[0, 0]], ∅, 0⟩, [0, 0], [10], []⟩ ∧
    makeRequest 0 (initManager 1 5) [.http 429, .http 429, .http 429] =
      ⟨.raisedHttp 429, ⟨1, 5, 60, [[0, 0, 0]], ∅, 0⟩, [0, 0, 0], [10, 10, 10], []⟩ :=
  ⟨C5_429_sleep_then_retry.1 0 (initManager 1 5) ⟨1, 5, 60, [[0]], ∅, 0⟩
      ⟨1, 5, 60, [[0, 0]], ∅, 0⟩ 0 0 7 [] (by decide) (by decide),
    C5_429_sleep_then_retry.2 0 (initManager 1 5) ⟨1, 5, 60, [[0]], ∅, 0⟩
      ⟨1, 5, 60, [[0, 0]], ∅, 0⟩ ⟨1, 5, 60, [[0, 0, 0]], ∅, 0⟩ 0 0 0
      (by decide) (by decide) (by decide)⟩

theorem C3_witness :
    ((1 : Nat) ≠ 0) ∧
    ((0 : Nat) ∈ (initManager 2 1).disabledKeys → False) ∧
    (disableKey 0 "b" (disableKey 0 "a" (initManager 2 1))).disabledKeys =
      (disableKey 0 "a" (initManager 2 1)).disabledKeys :=
  ⟨C3_disable_permanent_and_idempotent.1 (initManager 2 1) 0 "a" _
      Relation.ReflTransGen.refl 0 1 ⟨2, 1, 60, [[], [0]], {0}, 0⟩ (by decide),
    by decide,
    C3_disable_permanent_and_idempotent.2 (disableKey 0 "a" (initManager 2 1)) 0 "b"
      (by decide)⟩

theorem filterLen_mono_pred {p q : Int → Bool} (l : List Int)
    (h : ∀ a, p a = true → q a = true) :
    (l.filter p).length ≤ (l.filter q).length := by
  induction l with
  | nil => simp
  | cons x xs ih =>
    by_cases hx : p x = true
    · rw [List.filter_cons_of_pos hx, List.filter_cons_of_pos (h x hx)]
      simpa using ih
    · rw [List.filter_cons_of_neg (by simpa using hx)]
      by_cases hq : q x = true
      · rw [List.filter_cons_of_pos hq]
        exact ih.trans (by simp)
      · rw [List.filter_cons_of_neg (by simpa using hq)]
        exact ih

theorem filterLen_le_of_sublist {p : Int → Bool} {l₁ l₂ : List Int}
    (h : l₁.Sublist l₂) : (l₁.filter p).length ≤ (l₂.filter p).length :=
  (h.filter p).length_le

theorem getD_set_self (l : List (List Int)) (i : Nat) (v : List Int) :
    (l.set i v).getD i [] = if i < l.length then v else l.getD i [] := by
  by_cases h : i < l.length
  · rw [if_pos h, List.getD_eq_getElem?_getD, List.getElem?_set_self h]
    rfl
  · rw [if_neg h, List.set_eq_of_length_le (Nat.le_of_not_lt h)]

theorem getD_set_other (l : List (List Int)) {i j : Nat} (h : i ≠ j)
    (v : List Int) : (l.set i v).getD j [] = l.getD j [] := by
  rw [List.getD_eq_getElem?_getD, List.getElem?_set_ne h,
    ← List.getD_eq_getElem?_getD]

theorem tsOf_cleanKey_self (now : Int) (c : Nat) (m : RateLimitedKeyManager) :
    tsOf (cleanKey now c m) c = cleanList now m.windowSeconds (tsOf m c) := by
  show (m.requestTimestamps.set c _).getD c [] = _
  rw [getD_set_self]
  split
  · rfl
  · rename_i h
    have hnil : tsOf m c = [] := by
      show m.requestTimestamps.getD c [] = []
      rw [List.getD_eq_getElem?_getD, List.getElem?_eq_none (Nat.le_of_not_lt h)]
      rfl
    show tsOf m c = cleanList now m.windowSeconds (tsOf m c)
    rw [hnil]
    rfl

theorem tsOf_cleanKey_other (now : Int) {c j : Nat} (h : c ≠ j)
    (m : RateLimitedKeyManager) : tsOf (cleanKey now c m) j = tsOf m j :=
  getD_set_other _ h _

theorem cleanList_suffix (now w : Int) (l : List Int) : cleanList now w l <:+ l :=
  List.dropWhile_suffix _

theorem cleanList_idem (now w : Int) (l : List Int) :
    cleanList now w (cleanList now w l) = cleanList now w l :=
  List.dropWhile_idempotent _ _

theorem getAvailableKeyAux_ts_suffix (now : Int) (fuel : Nat) :
    ∀ (m : RateLimitedKeyManager) (j : Nat),
      tsOf (getAvailableKeyAux now fuel m).2 j <:+ tsOf m j := by
  induction fuel with
  | zero => intro m j; exact List.suffix_refl _
  | succ fuel ih =>
    intro m j
    rw [getAvailableKeyAux]
    split
    · exact ih _ j
    · dsimp only
      split
      · by_cases hc : m.currentKeyIndex = j
        · subst hc
          show tsOf (cleanKey now m.currentKeyIndex m) m.currentKeyIndex <:+ _
          rw [tsOf_cleanKey_self]
          exact cleanList_suffix _ _ _
        · show tsOf (cleanKey now m.currentKeyIndex m) j <:+ _
          rw [tsOf_cleanKey_other now hc]
      · refine (ih _ j).trans ?_
        by_cases hc : m.currentKeyIndex = j
        · subst hc
          show tsOf (cleanKey now m.currentKeyIndex m) m.currentKeyIndex <:+ _
          rw [tsOf_cleanKey_self]
          exact cleanList_suffix _ _ _
        · show tsOf (cleanKey now m.currentKeyIndex m) j <:+ _
          rw [tsOf_cleanKey_other now hc]

theorem getAvailableKeyAux_some_clean (now : Int) (fuel : Nat) :
    ∀ {m m' : RateLimitedKeyManager} {k : Nat},
      getAvailableKeyAux now fuel m = (some k, m') →
      cleanList now m'.windowSeconds (tsOf m' k) = tsOf m' k ∧
        (tsOf m' k).length < m'.requestsPerMinute := by
  induction fuel with
  | zero => intro m m' k h; simp [getAvailableKeyAux] at h
  | succ fuel ih =>
    intro m m' k h
    rw [getAvailableKeyAux] at h
    split at h
    · exact ih h
    · dsimp only at h
      split at h
      · rename_i hlen
        obtain ⟨hk, hm⟩ := Prod.mk.injEq .. ▸ h
        obtain rfl := Option.some.injEq .. ▸ hk
        subst hm
        refine ⟨?_, hlen⟩
        show cleanList now m.windowSeconds
            (tsOf (cleanKey now m.currentKeyIndex m) m.currentKeyIndex) =
          tsOf (cleanKey now m.currentKeyIndex m) m.currentKeyIndex
        rw [tsOf_cleanKey_self]
        exact cleanList_idem _ _ _
      · exact ih h

theorem getAvailableKeyAux_some_cursor_lt (now : Int) (fuel : Nat) :
    ∀ {m m' : RateLimitedKeyManager} {k : Nat},
      getAvailableKeyAux now fuel m = (some k, m') →
      0 < m.numKeys → m.currentKeyIndex < m.numKeys → k < m'.numKeys := by
  induction fuel with
  | zero => intro m m' k h; simp [getAvailableKeyAux] at h
  | succ fuel ih =>
    intro m m' k h hn hc
    rw [getAvailableKeyAux] at h
    split at h
    · exact ih h hn (Nat.mod_lt _ hn)
    · dsimp only at h
      split at h
      · obtain ⟨hk, hm⟩ := Prod.mk.injEq .. ▸ h
        obtain rfl := Option.some.injEq .. ▸ hk
        subst hm
        exact hc
      · exact ih h hn (Nat.mod_lt _ hn)

theorem getAvailableKeyAux_none_cursor_lt (now : Int) (fuel : Nat) :
    ∀ {m m' : RateLimitedKeyManager},
      getAvailableKeyAux now fuel m = (none, m') →
      0 < m.numKeys → m.currentKeyIndex < m.numKeys →
      m'.currentKeyIndex < m'.numKeys := by
  induction fuel with
  | zero =>
    intro m m' h hn hc
    obtain ⟨_, rfl⟩ := Prod.mk.injEq .. ▸ h
    exact hc
  | succ fuel ih =>
    intro m m' h hn hc
    rw [getAvailableKeyAux] at h
    split at h
    · exact ih h hn (Nat.mod_lt _ hn)
    · dsimp only at h
      split at h
      · simp at h
      · exact ih h hn (Nat.mod_lt _ hn)

theorem getAvailableKeyAux_tslen (now : Int) (fuel : Nat) :
    ∀ m : RateLimitedKeyManager,
      (getAvailableKeyAux now fuel m).2.requestTimestamps.length =
        m.requestTimestamps.length := by
  induction fuel with
  | zero => intro m; rfl
  | succ fuel ih =>
    intro m
    rw [getAvailableKeyAux]
    split
    · exact ih _
    · dsimp only
      split
      · exact List.length_set ..
      · rw [ih]
        exact List.length_set ..

theorem cleanKeysOn_ts_suffix (now : Int) (ks : List Nat) :
    ∀ (m : RateLimitedKeyManager) (j : Nat),
      tsOf (cleanKeysOn now ks m) j <:+ tsOf m j := by
  induction ks with
  | nil => intro m j; exact List.suffix_refl _
  | cons k ks ih =>
    intro m j
    simp only [cleanKeysOn, List.foldl_cons]
    by_cases hk : k ∈ m.disabledKeys
    · rw [if_pos hk]
      exact ih m j
    · rw [if_neg hk]
      refine (ih (cleanKey now k m) j).trans ?_
      by_cases hc : k = j
      · subst hc
        rw [tsOf_cleanKey_self]
        exact cleanList_suffix _ _ _
      · rw [tsOf_cleanKey_other now hc]

theorem cleanKeysOn_tslen (now : Int) (ks : List Nat) :
    ∀ m : RateLimitedKeyManager,
      (cleanKeysOn now ks m).requestTimestamps.length =
        m.requestTimestamps.length := by
  induction ks with
  | nil => intro m; rfl
  | cons k ks ih =>
    intro m
    simp only [cleanKeysOn, List.foldl_cons]
    by_cases hk : k ∈ m.disabledKeys
    · rw [if_pos hk]
      exact ih m
    · rw [if_neg hk]
      exact (ih (cleanKey now k m)).trans (List.length_set ..)

theorem cleanKeysOn_cursor (now : Int) (ks : List Nat) :
    ∀ m : RateLimitedKeyManager,
      (cleanKeysOn now ks m).currentKeyIndex = m.currentKeyIndex := by
  induction ks with
  | nil => intro m; rfl
  | cons k ks ih =>
    intro m
    simp only [cleanKeysOn, List.foldl_cons]
    by_cases hk : k ∈ m.disabledKeys
    · rw [if_pos hk]
      exact ih m
    · rw [if_neg hk]
      exact ih _

theorem windowCount_mono_time {t t' : Int} (h : t ≤ t') (m : RateLimitedKeyManager)
    (k : Nat) : windowCount t' m k ≤ windowCount t m k := by
  unfold windowCount
  refine filterLen_mono_pred _ ?_
  intro a ha
  simp only [decide_eq_true_eq] at *
  omega

theorem windowCount_le_of_ts_suffix {m m' : RateLimitedKeyManager}
    (hw : m'.windowSeconds = m.windowSeconds) (k : Nat)
    (h : tsOf m' k <:+ tsOf m k) (t : Int) :
    windowCount t m' k ≤ windowCount t m k := by
  unfold windowCount
  rw [hw]
  exact filterLen_le_of_sublist h.sublist

theorem tsOf_set_cases (l : List (List Int)) (k : Nat) (v : List Int) (j : Nat) :
    (l.set k v).getD j [] = v ∨ (l.set k v).getD j [] = l.getD j [] := by
  by_cases hj : k = j
  · subst hj
    rw [getD_set_self]
    split
    · exact Or.inl rfl
    · exact Or.inr rfl
  · exact Or.inr (getD_set_other _ hj _)

theorem tsOf_init (n r k : Nat) : tsOf (initManager n r) k = [] := by
  show (List.replicate n ([] : List Int)).getD k [] = []
  rw [List.getD_eq_getElem?_getD]
  rcases Nat.lt_or_ge k n with hk | hk
  · rw [List.getElem?_eq_getElem (by simpa using hk)]
    simp
  · rw [List.getElem?_eq_none (by simpa using hk)]
    rfl

theorem acquireOnce_acquired_elim {t : Int} {m : RateLimitedKeyManager} {k : Nat}
    {m'' : RateLimitedKeyManager} (h : acquireOnce t m = .acquired k m'') :
    ¬m.numKeys ≤ m.disabledKeys.card ∧
    ∃ m', getAvailableKeyAux t m.numKeys m = (some k, m') ∧
      m'' = { m' with
        requestTimestamps := m'.requestTimestamps.set k (tsOf m' k ++ [t]),
        currentKeyIndex := (k + 1) % m'.numKeys } := by
  unfold acquireOnce at h
  split at h
  · exact absurd h (by simp)
  · rename_i hguard
    rw [getAvailableKey] at h
    rcases haux : getAvailableKeyAux t m.numKeys m with ⟨o, m₀⟩
    rw [haux] at h
    match o with
    | none => simp at h
    | some k₀ =>
      obtain ⟨rfl, rfl⟩ : k₀ = k ∧ _ = m'' := by
        simpa [AcquireResult.acquired.injEq] using h
      exact ⟨hguard, m₀, rfl, rfl⟩

theorem acquireOnce_mustWait_elim {t : Int} {m : RateLimitedKeyManager} {w : Int}
    {m'' : RateLimitedKeyManager} (h : acquireOnce t m = .mustWait w m'') :
    ¬m.numKeys ≤ m.disabledKeys.card ∧
    ∃ m', getAvailableKeyAux t m.numKeys m = (none, m') ∧
      w = getWaitTimeVal t m' ∧ m'' = cleanActive t m' := by
  unfold acquireOnce at h
  split at h
  · exact absurd h (by simp)
  · rename_i hguard
    rw [getAvailableKey] at h
    rcases haux : getAvailableKeyAux t m.numKeys m with ⟨o, m₀⟩
    rw [haux] at h
    match o with
    | some k₀ => simp at h
    | none =>
      obtain ⟨rfl, rfl⟩ : getWaitTimeVal t m₀ = w ∧ cleanActive t m₀ = m'' := by
        simpa [AcquireResult.mustWait.injEq] using h
      exact ⟨hguard, m₀, rfl, rfl, rfl⟩

theorem Reaches_config {n r : Nat} {t : Int} {m : RateLimitedKeyManager}
    (h : Reaches n r t m) :
    m.numKeys = n ∧ m.requestsPerMinute = r ∧ m.windowSeconds = 60 ∧
      m.requestTimestamps.length = n ∧ (0 < n → m.currentKeyIndex < n) := by
  induction h with
  | init t => exact ⟨rfl, rfl, rfl, List.length_replicate .., fun hn => hn⟩
  | time _ _ ih => exact ih
  | acq hre hacq ih =>
    rename_i t₁ m₁ k m₂
    obtain ⟨hguard, m', haux, heq⟩ := acquireOnce_acquired_elim hacq
    have hsc := getAvailableKeyAux_sameConfig t₁ m₁.numKeys m₁
    rw [haux] at hsc
    have hlen := getAvailableKeyAux_tslen t₁ m₁.numKeys m₁
    rw [haux] at hlen
    subst heq
    refine ⟨hsc.1.trans ih.1, hsc.2.1.trans ih.2.1, hsc.2.2.1.trans ih.2.2.1, ?_, ?_⟩
    · show (m'.requestTimestamps.set _ _).length = n
      rw [List.length_set]
      exact hlen.trans ih.2.2.2.1
    · intro hn
      show (k + 1) % m'.numKeys < n
      rw [hsc.1.trans ih.1]
      exact Nat.mod_lt _ hn
  | wait hre hacq ih =>
    rename_i t₁ m₁ w m₂
    obtain ⟨hguard, m', haux, hw, heq⟩ := acquireOnce_mustWait_elim hacq
    have hsc := getAvailableKeyAux_sameConfig t₁ m₁.numKeys m₁
    rw [haux] at hsc
    have hlen := getAvailableKeyAux_tslen t₁ m₁.numKeys m₁
    rw [haux] at hlen
    have hsc2 := cleanActive_sameConfig t₁ m'
    subst heq
    refine ⟨hsc2.1.trans (hsc.1.trans ih.1), hsc2.2.1.trans (hsc.2.1.trans ih.2.1),
      hsc2.2.2.1.trans (hsc.2.2.1.trans ih.2.2.1), ?_, ?_⟩
    · show (cleanKeysOn t₁ (List.range m'.numKeys) m').requestTimestamps.length = n
      rw [cleanKeysOn_tslen]
      exact hlen.trans ih.2.2.2.1
    · intro hn
      show (cleanKeysOn t₁ (List.range m'.numKeys) m').currentKeyIndex < n
      rw [cleanKeysOn_cursor]
      have hc' := getAvailableKeyAux_none_cursor_lt t₁ m₁.numKeys haux
        (by rw [ih.1]; exact hn) (by rw [ih.1]; exact ih.2.2.2.2 hn)
      rw [hsc.1.trans ih.1] at hc'
      exact hc'
  | dis k reason hre ih =>
    exact ⟨ih.1, ih.2.1, ih.2.2.1, ih.2.2.2.1, ih.2.2.2.2⟩

theorem Reaches_windowCount {n r : Nat} {t : Int} {m : RateLimitedKeyManager}
    (h : Reaches n r t m) : ∀ k, windowCount t m k ≤ r := by
  induction h with
  | init t =>
    intro k
    unfold windowCount
    rw [tsOf_init]
    simp
  | time hre hle ih =>
    rename_i t₁ t₂ m₁
    intro k
    exact (windowCount_mono_time hle _ k).trans (ih k)
  | acq hre hacq ih =>
    rename_i t₁ m₁ k m₂
    intro j
    obtain ⟨hguard, m', haux, heq⟩ := acquireOnce_acquired_elim hacq
    have hcfg := Reaches_config hre
    have hsc := getAvailableKeyAux_sameConfig t₁ m₁.numKeys m₁
    rw [haux] at hsc
    have hclean := getAvailableKeyAux_some_clean t₁ m₁.numKeys haux
    have hsuf := getAvailableKeyAux_ts_suffix t₁ m₁.numKeys m₁ j
    rw [haux] at hsuf
    subst heq
    unfold windowCount
    rcases tsOf_set_cases m'.requestTimestamps k (tsOf m' k ++ [t₁]) j with hset | hset
    · show (((m'.requestTimestamps.set k (tsOf m' k ++ [t₁])).getD j []).filter
          (fun x => decide (t₁ - m'.windowSeconds ≤ x))).length ≤ r
      rw [hset, List.filter_append]
      have h1 : ((tsOf m' k).filter
          (fun x => decide (t₁ - m'.windowSeconds ≤ x))).length ≤ (tsOf m' k).length :=
        List.length_filter_le _ _
      have h2 : (tsOf m' k).length < r := by
        have := hclean.2
        rwa [hsc.2.1.trans hcfg.2.1] at this
      have h3 : (([t₁]).filter
          (fun x => decide (t₁ - m'.windowSeconds ≤ x))).length ≤ 1 := by
        exact (List.length_filter_le _ _).trans (by simp)
      rw [List.length_append]
      omega
    · show (((m'.requestTimestamps.set k (tsOf m' k ++ [t₁])).getD j []).filter
          (fun x => decide (t₁ - m'.windowSeconds ≤ x))).length ≤ r
      rw [hset]
      have hle : ((tsOf m' j).filter
            (fun x => decide (t₁ - m'.windowSeconds ≤ x))).length ≤
          ((tsOf m₁ j).filter
            (fun x => decide (t₁ - m₁.windowSeconds ≤ x))).length := by
        rw [hsc.2.2.1]
        exact filterLen_le_of_sublist hsuf.sublist
      exact hle.trans (ih j)
  | wait hre hacq ih =>
    rename_i t₁ m₁ w m₂
    intro j
    obtain ⟨hguard, m', haux, hw, heq⟩ := acquireOnce_mustWait_elim hacq
    have hsc := getAvailableKeyAux_sameConfig t₁ m₁.numKeys m₁
    rw [haux] at hsc
    have hsuf := getAvailableKeyAux_ts_suffix t₁ m₁.numKeys m₁ j
    rw [haux] at hsuf
    have hsuf2 := cleanKeysOn_ts_suffix t₁ (List.range m'.numKeys) m' j
    have hsc2 := cleanActive_sameConfig t₁ m'
    subst heq
    unfold windowCount
    have hws : (cleanActive t₁ m').windowSeconds = m₁.windowSeconds :=
      hsc2.2.2.1.trans hsc.2.2.1
    rw [hws]
    refine (filterLen_le_of_sublist ?_).trans (ih j)
    exact (hsuf2.trans hsuf).sublist
  | dis k reason hre ih =>
    intro j
    exact ih j

theorem Reaches_acquired_fresh {n r : Nat} {t : Int}
    {m m'' : RateLimitedKeyManager} {k : Nat} (hre : Reaches n r t m)
    (hacq : acquireOnce t m = .acquired k m'') :
    ∃ l, tsOf m'' k = l ++ [t] ∧ l.length < r ∧
      cleanList t m.windowSeconds l = l := by
  obtain ⟨hguard, m', haux, heq⟩ := acquireOnce_acquired_elim hacq
  have hcfg := Reaches_config hre
  have hsc := getAvailableKeyAux_sameConfig t m.numKeys m
  rw [haux] at hsc
  have hlen := getAvailableKeyAux_tslen t m.numKeys m
  rw [haux] at hlen
  have hclean := getAvailableKeyAux_some_clean t m.numKeys haux
  have hn : 0 < n := by
    rcases Nat.eq_zero_or_pos n with h0 | h1
    · exact absurd (by rw [hcfg.1, h0]; exact Nat.zero_le _) hguard
    · exact h1
  have hk : k < m'.numKeys :=
    getAvailableKeyAux_some_cursor_lt t m.numKeys haux
      (by rw [hcfg.1]; exact hn) (by rw [hcfg.1]; exact hcfg.2.2.2.2 hn)
  have hklen : k < m'.requestTimestamps.length := by
    rw [hlen, hcfg.2.2.2.1, ← hcfg.1, ← hsc.1]
    exact hk
  subst heq
  refine ⟨tsOf m' k, ?_, ?_, ?_⟩
  · show (m'.requestTimestamps.set k (tsOf m' k ++ [t])).getD k [] = _
    rw [getD_set_self, if_pos hklen]
  · have := hclean.2
    rwa [hsc.2.1.trans hcfg.2.1] at this
  · have := hclean.1
    rwa [hsc.2.2.1] at this

theorem filled_ts (n r : Nat) (t0 : Int) (a k i : Nat) :
    tsOf (filledState n r t0 a k) i =
      if i < n then List.replicate (if i < k then a + 1 else a) t0 else [] := by
  show ((List.range n).map _).getD i [] = _
  rw [List.getD_eq_getElem?_getD]
  rcases Nat.lt_or_ge i n with hi | hi
  · rw [List.getElem?_eq_getElem (by simpa using hi), if_pos hi]
    simp
  · rw [List.getElem?_eq_none (by simpa using hi), if_neg (Nat.not_lt.mpr hi)]
    rfl

theorem cleanList_replicate_now (now : Int) {w : Int} (hw : 0 ≤ w) (a : Nat) :
    cleanList now w (List.replicate a now) = List.replicate a now := by
  cases a with
  | zero => rfl
  | succ a =>
    show List.dropWhile _ (now :: List.replicate a now) = _
    have hpred : ¬now < now - w := by omega
    exact List.dropWhile_cons_of_neg (by simpa using hpred)

theorem set_getD_eq_self (l : List (List Int)) {k : Nat} (h : k < l.length) :
    l.set k (l.getD k []) = l := by
  apply List.ext_getElem
  · simp
  · intro i h1 h2
    rw [List.getElem_set]
    split
    · rename_i hik
      subst hik
      rw [List.getD_eq_getElem?_getD, List.getElem?_eq_getElem h]
      rfl
    · rfl

theorem aux_first_hit {now : Int} {m : RateLimitedKeyManager}
    (h1 : m.currentKeyIndex ∉ m.disabledKeys)
    (h2 : (tsOf (cleanKey now m.currentKeyIndex m)
        (cleanKey now m.currentKeyIndex m).currentKeyIndex).length <
      (cleanKey now m.currentKeyIndex m).requestsPerMinute)
    {fuel : Nat} (hf : 0 < fuel) :
    getAvailableKeyAux now fuel m =
      (some m.currentKeyIndex, cleanKey now m.currentKeyIndex m) := by
  obtain ⟨f, rfl⟩ : ∃ f, fuel = f + 1 := ⟨fuel - 1, by omega⟩
  rw [getAvailableKeyAux, if_neg h1]
  dsimp only
  rw [if_pos h2]
  rfl

theorem filled_step (n r : Nat) (t0 : Int) {a k : Nat} (ha : a < r) (hk : k < n) :
    acquireOnce t0 (filledState n r t0 a k) =
      .acquired k (filledState n r t0 a (k + 1)) := by
  have hn : 0 < n := lt_of_le_of_lt (Nat.zero_le k) hk
  have hcur : (filledState n r t0 a k).currentKeyIndex = k := Nat.mod_eq_of_lt hk
  have htsk : tsOf (filledState n r t0 a k) k = List.replicate a t0 := by
    rw [filled_ts, if_pos hk, if_neg (lt_irrefl k)]
  have hklen : k < (filledState n r t0 a k).requestTimestamps.length := by
    show k < ((List.range n).map _).length
    simpa using hk
  have hckey : cleanKey t0 k (filledState n r t0 a k) = filledState n r t0 a k := by
    have hclean : cleanList t0 (filledState n r t0 a k).windowSeconds
        (tsOf (filledState n r t0 a k) k) = tsOf (filledState n r t0 a k) k := by
      rw [htsk]
      exact cleanList_replicate_now t0 (by norm_num : (0:Int) ≤ 60) a
    unfold cleanKey
    rw [hclean]
    show { filledState n r t0 a k with
      requestTimestamps := (filledState n r t0 a k).requestTimestamps.set k
        ((filledState n r t0 a k).requestTimestamps.getD k []) } = _
    rw [set_getD_eq_self _ hklen]
  have haux : getAvailableKeyAux t0 (filledState n r t0 a k).numKeys
      (filledState n r t0 a k) = (some k, filledState n r t0 a k) := by
    have := @aux_first_hit t0 (filledState n r t0 a k)
      (by rw [hcur]; exact Finset.not_mem_empty k)
      (by
        rw [hcur, hckey, hcur]
        show (tsOf (filledState n r t0 a k) k).length < r
        rw [htsk]
        simpa using ha)
      (filledState n r t0 a k).numKeys (by show 0 < n; exact hn)
    rw [hcur, hckey] at this
    exact this
  have hts : (filledState n r t0 a k).requestTimestamps.set k
      (tsOf (filledState n r t0 a k) k ++ [t0]) =
      (filledState n r t0 a (k + 1)).requestTimestamps := by
    show ((List.range n).map _).set k _ = (List.range n).map _
    apply List.ext_getElem
    · simp
    · intro i hi1 hi2
      rw [List.getElem_set]
      simp only [List.getElem_map, List.getElem_range]
      split
      · rename_i hik
        subst hik
        rw [htsk, if_pos (Nat.lt_succ_self k)]
        exact (List.replicate_succ' a t0).symm
      · rename_i hik
        congr 1
        rcases Nat.lt_trichotomy i k with h | h | h
        · rw [if_pos h, if_pos (Nat.lt_succ_of_lt h)]
        · exact absurd h.symm hik
        · rw [if_neg (Nat.lt_asymm h), if_neg (by omega)]
  unfold acquireOnce
  split
  · rename_i habs
    have hcard : n ≤ 0 := habs
    omega
  · rw [getAvailableKey, haux]
    dsimp only
    rw [hts]
    rfl

theorem filled_wrap (n r : Nat) (t0 : Int) (a : Nat) :
    filledState n r t0 a n = filledState n r t0 (a + 1) 0 := by
  unfold filledState
  rw [RateLimitedKeyManager.mk.injEq]
  refine ⟨rfl, rfl, rfl, ?_, rfl, ?_⟩
  · apply List.map_congr_left
    intro i hi
    rw [if_pos (List.mem_range.mp hi), if_neg (Nat.not_lt_zero i)]
  · rw [Nat.mod_self, Nat.zero_mod]

theorem filled_stepJ (n r : Nat) (t0 : Int) {j : Nat} (hj : j < n * r) :
    acquireOnce t0 (filledState n r t0 (j / n) (j % n)) =
      .acquired (j % n) (filledState n r t0 ((j + 1) / n) ((j + 1) % n)) := by
  have hn : 0 < n := by
    rcases Nat.eq_zero_or_pos n with h0 | h1
    · rw [h0] at hj; simp at hj
    · exact h1
  have hkn : j % n < n := Nat.mod_lt _ hn
  have har : j / n < r := by
    rw [Nat.div_lt_iff_lt_mul hn, Nat.mul_comm]
    exact hj
  rw [filled_step n r t0 har hkn]
  rcases Nat.lt_or_ge (j % n + 1) n with hlt | hge
  · have hj1 : j + 1 = (j % n + 1) + n * (j / n) := by
      have := Nat.div_add_mod j n
      omega
    have hdiv : (j + 1) / n = j / n := by
      rw [hj1, Nat.add_mul_div_left _ _ hn, Nat.div_eq_of_lt hlt, Nat.zero_add]
    have hmod : (j + 1) % n = j % n + 1 := by
      rw [hj1, Nat.add_mul_mod_self_left]
      exact Nat.mod_eq_of_lt hlt
    rw [hdiv, hmod]
  · have heq : j % n + 1 = n := Nat.le_antisymm (Nat.succ_le_of_lt hkn) hge
    have hj1 : j + 1 = n * (j / n + 1) := by
      have h1 := Nat.div_add_mod j n
      have h2 : n * (j / n + 1) = n * (j / n) + n := Nat.mul_succ n (j / n)
      omega
    have hdiv : (j + 1) / n = j / n + 1 := by
      rw [hj1, Nat.mul_div_cancel_left _ hn]
    have hmod : (j + 1) % n = 0 := by
      rw [hj1]
      exact Nat.mul_mod_right _ _
    rw [hdiv, hmod, heq, filled_wrap]

theorem acquireN_filled (n r : Nat) (t0 : Int) :
    ∀ (c j : Nat), j + c ≤ n * r →
      acquireN t0 c (filledState n r t0 (j / n) (j % n)) =
        some (filledState n r t0 ((j + c) / n) ((j + c) % n)) := by
  intro c
  induction c with
  | zero => intro j hj; rw [Nat.add_zero]; rfl
  | succ c ih =>
    intro j hj
    rw [acquireN, filled_stepJ n r t0 (show j < n * r by omega)]
    have h1 := ih (j + 1) (by omega)
    rw [show j + 1 + c = j + (c + 1) from by omega] at h1
    exact h1

theorem initManager_eq_filled (n r : Nat) (t0 : Int) :
    initManager n r = filledState n r t0 0 0 := by
  unfold initManager filledState
  rw [RateLimitedKeyManager.mk.injEq]
  refine ⟨rfl, rfl, rfl, ?_, rfl, (Nat.zero_mod n).symm⟩
  apply List.ext_getElem
  · simp
  · intro i h1 h2
    simp

theorem set_tsOf_eq_self (m : RateLimitedKeyManager) {k : Nat}
    (h : k < m.requestTimestamps.length) :
    m.requestTimestamps.set k (tsOf m k) = m.requestTimestamps :=
  set_getD_eq_self _ h

theorem full_cursor_state_ts (n r : Nat) (t0 : Int) (c i : Nat) :
    tsOf { filledState n r t0 r 0 with currentKeyIndex := c } i =
      tsOf (filledState n r t0 r 0) i := rfl

theorem cleanKey_full_id (n r : Nat) (t0 : Int) {c : Nat} (hc : c < n) :
    cleanKey t0 c { filledState n r t0 r 0 with currentKeyIndex := c } =
      { filledState n r t0 r 0 with currentKeyIndex := c } := by
  have htsc : tsOf { filledState n r t0 r 0 with currentKeyIndex := c } c =
      List.replicate r t0 := by
    rw [full_cursor_state_ts, filled_ts, if_pos hc, if_neg (Nat.not_lt_zero c)]
  have hclean : cleanList t0
      ({ filledState n r t0 r 0 with currentKeyIndex := c } :
        RateLimitedKeyManager).windowSeconds
      (tsOf { filledState n r t0 r 0 with currentKeyIndex := c } c) =
      tsOf { filledState n r t0 r 0 with currentKeyIndex := c } c := by
    rw [htsc]
    exact cleanList_replicate_now t0 (by norm_num : (0:Int) ≤ 60) r
  have hklen : c < ({ filledState n r t0 r 0 with currentKeyIndex := c } :
      RateLimitedKeyManager).requestTimestamps.length := by
    show c < ((List.range n).map _).length
    simpa using hc
  unfold cleanKey
  rw [hclean, set_tsOf_eq_self _ hklen]

theorem aux_full_none (n r : Nat) (t0 : Int) (fuel : Nat) :
    ∀ c : Nat, c < n →
      getAvailableKeyAux t0 fuel
          { filledState n r t0 r 0 with currentKeyIndex := c } =
        (none, { filledState n r t0 r 0 with currentKeyIndex := (c + fuel) % n }) := by
  induction fuel with
  | zero =>
    intro c hc
    rw [show (c + 0) % n = c from by rw [Nat.add_zero]; exact Nat.mod_eq_of_lt hc]
    rfl
  | succ fuel ih =>
    intro c hc
    have hn0 : 0 < n := lt_of_le_of_lt (Nat.zero_le c) hc
    rw [getAvailableKeyAux]
    split
    · rename_i hmem
      exact absurd hmem (Finset.not_mem_empty c)
    · dsimp only
      split
      · rename_i hlt
        exfalso
        rw [cleanKey_full_id n r t0 hc] at hlt
        have hlt2 : (tsOf { filledState n r t0 r 0 with currentKeyIndex := c }
            c).length < r := hlt
        rw [full_cursor_state_ts, filled_ts, if_pos hc,
          if_neg (Nat.not_lt_zero c)] at hlt2
        simp at hlt2
      · rw [cleanKey_full_id n r t0 hc]
        have h1 := ih ((c + 1) % n) (Nat.mod_lt _ hn0)
        rw [show ((c + 1) % n + fuel) % n = (c + (fuel + 1)) % n from by
          rw [Nat.mod_add_mod]; congr 1; omega] at h1
        exact h1

theorem filled_full_eq_cursor0 (n r : Nat) (t0 : Int) :
    { filledState n r t0 r 0 with currentKeyIndex := 0 } =
      filledState n r t0 r 0 := by
  unfold filledState
  dsimp only
  rw [Nat.zero_mod]

theorem foldl_min_replicate (x : Int) : ∀ n : Nat,
    List.foldl min x (List.replicate n x) = x
  | 0 => rfl
  | n + 1 => by
    show List.foldl min (min x x) (List.replicate n x) = x
    rw [min_self]
    exact foldl_min_replicate x n

theorem getWaitTimeVal_full (n r : Nat) (t0 : Int) (hn : 1 ≤ n) (hr : 1 ≤ r) :
    getWaitTimeVal t0 (filledState n r t0 r 0) = 60 := by
  have hw60 : (0:Int) ≤ (filledState n r t0 r 0).windowSeconds := by
    show (0:Int) ≤ 60
    norm_num
  unfold getWaitTimeVal
  dsimp only
  have hactive : (List.range (filledState n r t0 r 0).numKeys).filter
      (fun k => decide (k ∉ (filledState n r t0 r 0).disabledKeys)) =
      List.range n := by
    show (List.range n).filter _ = List.range n
    rw [List.filter_eq_self]
    intro a ha
    exact decide_eq_true (Finset.not_mem_empty a)
  rw [hactive]
  have hany : ((List.range n).any fun k =>
      decide ((cleanList t0 (filledState n r t0 r 0).windowSeconds
        (tsOf (filledState n r t0 r 0) k)).length <
        (filledState n r t0 r 0).requestsPerMinute)) = false := by
    rw [List.any_eq_false]
    intro k hk habs
    have hkn := List.mem_range.mp hk
    rw [decide_eq_true_eq] at habs
    rw [filled_ts, if_pos hkn, if_neg (Nat.not_lt_zero k),
      cleanList_replicate_now t0 hw60 r, List.length_replicate] at habs
    have hrr : r < r := habs
    omega
  rw [hany, if_neg Bool.false_ne_true]
  have hmap : ((List.range n).filterMap fun k =>
      (cleanList t0 (filledState n r t0 r 0).windowSeconds
        (tsOf (filledState n r t0 r 0) k)).head?.map
        (fun oldest => oldest + (filledState n r t0 r 0).windowSeconds - t0)) =
      List.replicate n 60 := by
    have hcongr : ∀ k ∈ List.range n,
        ((cleanList t0 (filledState n r t0 r 0).windowSeconds
          (tsOf (filledState n r t0 r 0) k)).head?.map
          (fun oldest => oldest + (filledState n r t0 r 0).windowSeconds - t0)) =
        (fun _ : Nat => some (60:Int)) k := by
      intro k hk
      have hkn := List.mem_range.mp hk
      rw [filled_ts, if_pos hkn, if_neg (Nat.not_lt_zero k),
        cleanList_replicate_now t0 hw60 r]
      obtain ⟨r', rfl⟩ : ∃ r', r = r' + 1 := ⟨r - 1, by omega⟩
      show some (t0 + (filledState n (r' + 1) t0 (r' + 1) 0).windowSeconds - t0) =
        some (60:Int)
      congr 1
      show t0 + 60 - t0 = 60
      ring
    rw [List.filterMap_congr hcongr,
      show (fun _ : Nat => some (60:Int)) = some ∘ (fun _ : Nat => (60:Int)) from rfl,
      List.filterMap_eq_map, List.map_const', List.length_range]
  rw [hmap]
  have hmin : (List.replicate n (60:Int)).min? = some 60 := by
    obtain ⟨n', rfl⟩ : ∃ n', n = n' + 1 := ⟨n - 1, by omega⟩
    show some (List.foldl min 60 (List.replicate n' 60)) = some 60
    rw [foldl_min_replicate]
  rw [hmin]
  norm_num

theorem acquireOnce_full_wait (n r : Nat) (t0 : Int) (hn : 1 ≤ n) (hr : 1 ≤ r) :
    acquireOnce t0 (filledState n r t0 r 0) =
      .mustWait 60 (cleanActive t0 (filledState n r t0 r 0)) := by
  have haux : getAvailableKeyAux t0 (filledState n r t0 r 0).numKeys
      (filledState n r t0 r 0) = (none, filledState n r t0 r 0) := by
    have h0 := aux_full_none n r t0 n 0 hn
    rw [show (0 + n) % n = 0 from by rw [Nat.zero_add, Nat.mod_self]] at h0
    rw [filled_full_eq_cursor0] at h0
    exact h0
  unfold acquireOnce
  split
  · rename_i habs
    have hle : n ≤ 0 := habs
    omega
  · rw [getAvailableKey, haux]
    dsimp only
    rw [getWaitTimeVal_full n r t0 hn hr]

/-- C1: for every pool of `n` credentials with quota `r` per 60-second window,
(1) in every state reachable by any sequence of limiter operations, every
credential's recorded window holds at most `r` timestamps within the trailing
window; (2) a successful acquisition always returns a credential whose purged
window held strictly fewer than `r` entries before the new timestamp was
appended; (3) after exactly `n * r` instantaneous acquisitions from a fresh
pool, the next acquisition pass does not return a credential but reports a
positive wait bounded by the 60-second window. -/
theorem C1_sliding_window_quota (n r : Nat) (t0 : Int) (hn : 1 ≤ n) (hr : 1 ≤ r) :
    (∀ (t : Int) (m : RateLimitedKeyManager), Reaches n r t m →
      ∀ k, windowCount t m k ≤ r) ∧
    (∀ (t : Int) (m m'' : RateLimitedKeyManager) (k : Nat),
      Reaches n r t m → acquireOnce t m = .acquired k m'' →
      ∃ l, tsOf m'' k = l ++ [t] ∧ l.length < r ∧
        cleanList t m.windowSeconds l = l) ∧
    (∃ mfull, acquireN t0 (n * r) (initManager n r) = some mfull ∧
      ∃ w mw, acquireOnce t0 mfull = .mustWait w mw ∧ 0 < w ∧ w ≤ 60) := by
  refine ⟨fun t m hre => Reaches_windowCount hre,
    fun t m m'' k hre hacq => Reaches_acquired_fresh hre hacq, ?_⟩
  refine ⟨filledState n r t0 r 0, ?_, 60, cleanActive t0 (filledState n r t0 r 0),
    acquireOnce_full_wait n r t0 hn hr, by norm_num, by norm_num⟩
  rw [initManager_eq_filled n r t0]
  have h0 := acquireN_filled n r t0 (n * r) 0 (by omega)
  rw [Nat.zero_div, Nat.zero_mod, Nat.zero_add] at h0
  rw [show n * r / n = r from Nat.mul_div_cancel_left r (by omega),
    show n * r % n = 0 from Nat.mul_mod_right n r] at h0
  exact h0

theorem C1_witness :
    windowCount 0 (initManager 1 1) 0 ≤ 1 ∧
    (∃ mfull, acquireN 0 (1 * 1) (initManager 1 1) = some mfull ∧
      ∃ w mw, acquireOnce 0 mfull = .mustWait w mw ∧ 0 < w ∧ w ≤ 60) :=
  ⟨(C1_sliding_window_quota 1 1 0 (by decide) (by decide)).1 0 (initManager 1 1)
      (Reaches.init 0) 0,
    (C1_sliding_window_quota 1 1 0 (by decide) (by decide)).2.2⟩

end FootballData
